import Mathlib

/-!
Shallow embedding of the rust-bittorent download engine
(crates `bittorrent_core`), together with proofs about the
piece picker, piece cache, peer session state machine, bitfield
validation and piece-count computation.

Machine integers are modelled as `Nat` (all quantities involved are
non-negative in the source); byte values are `Nat`s intended `< 256`.
Rust `HashMap`/`HashSet` values are modelled as association lists /
duplicate-free lists; `Vec` as `List`.  A Rust function that can panic
(out-of-bounds indexing / slicing) is modelled with an `Option` result,
`none` standing for the panic.
-/

namespace BT

/-- Peer socket addresses, abstracted to `Nat`. -/
abbrev Addr := Nat

/-! ### Association-list model of `std::collections::HashMap` -/

/-- Lookup in an association list (`HashMap::get`). -/
def mapLookup {β : Type} : List (Addr × β) → Addr → Option β
  | [], _ => none
  | (q, v) :: t, p => if q = p then some v else mapLookup t p

/-- Insert/replace in an association list (`HashMap::insert`). -/
def mapInsert {β : Type} : List (Addr × β) → Addr → β → List (Addr × β)
  | [], p, v => [(p, v)]
  | (q, w) :: t, p, v => if q = p then (p, v) :: t else (q, w) :: mapInsert t p v

/-- Removal from an association list (`HashMap::remove`); no-op when absent. -/
def mapRemove {β : Type} : List (Addr × β) → Addr → List (Addr × β)
  | [], _ => []
  | (q, w) :: t, p => if q = p then t else (q, w) :: mapRemove t p

/-! ### `bitfield.rs` -/

/-- Source `BitField`: a piece count and the MSB-first packed bytes.
All constructed values satisfy `inner.length = (total_pieces + 7) / 8`. -/
structure BitField where
  total_pieces : Nat
  inner : List Nat
  deriving DecidableEq, Repr

/-- Source `BitfieldError`. -/
inductive BitfieldError where
  | invalidLength (expected_len actual_len : Nat)
  | nonZeroSpareBits
  deriving DecidableEq, Repr

/-- Source `BitField::new`: all-zero bitfield of `ceil(total_pieces/8)` bytes. -/
def BitField.new (total_pieces : Nat) : BitField :=
  ⟨total_pieces, List.replicate ((total_pieces + 7) / 8) 0⟩

/-- Source `BitField::has_piece`: out-of-range reads return `false`;
bit `i` lives in byte `i / 8` at position `7 - i % 8` (MSB first).
The byte access is via `getD`, which agrees with the source's (panicking)
indexing because `i / 8 < inner.length` whenever `i < total_pieces` for
well-formed bitfields. -/
def BitField.has_piece (bf : BitField) (index : Nat) : Bool :=
  if index ≥ bf.total_pieces then false
  else Nat.testBit (bf.inner.getD (index / 8) 0) (7 - index % 8)

/-- Source `BitField::set_piece`: out-of-range writes are ignored. -/
def BitField.set_piece (bf : BitField) (index : Nat) : BitField :=
  if index ≥ bf.total_pieces then bf
  else
    { bf with inner :=
        (bf.inner.set (index / 8)
          ((bf.inner.getD (index / 8) 0) ||| (1 <<< (7 - index % 8)))) }

/-- Source `BitField::try_from(bytes, num_pieces)`: wire validation. -/
def BitField.tryFrom (bytes : List Nat) (num_pieces : Nat) :
    Except BitfieldError BitField :=
  let expected_bytes := (num_pieces + 7) / 8
  if bytes.length < expected_bytes then
    .error (.invalidLength expected_bytes bytes.length)
  else
    let last_byte_bits := num_pieces % 8
    if last_byte_bits ≠ 0 ∧
        (bytes.getD (expected_bytes - 1) 0) &&& (2 ^ (8 - last_byte_bits) - 1) ≠ 0 then
      .error .nonZeroSpareBits
    else if (bytes.drop expected_bytes).any (fun b => b ≠ 0) then
      .error .nonZeroSpareBits
    else
      .ok ⟨num_pieces, bytes.take expected_bytes⟩

/-- Classifier: the validation returned `InvalidLength`. -/
def isInvalidLengthResult : Except BitfieldError BitField → Bool
  | .error (.invalidLength _ _) => true
  | _ => false

/-- Classifier: the validation returned `NonZeroSpareBits`. -/
def isNonZeroSpareResult : Except BitfieldError BitField → Bool
  | .error .nonZeroSpareBits => true
  | _ => false

/-- Classifier: the validation succeeded. -/
def isOkResult : Except BitfieldError BitField → Bool
  | .ok _ => true
  | _ => false

/-- Well-formedness maintained by every `BitField` the source constructs. -/
def BitField.WF (bf : BitField) : Prop :=
  bf.inner.length = (bf.total_pieces + 7) / 8

instance (bf : BitField) : Decidable bf.WF := by
  unfold BitField.WF; infer_instance

/-! ### `piece_picker.rs` -/

/-- Source `PieceStatus`. -/
inductive PieceStatus where
  | NotRequested
  | Requested
  | Download
  deriving DecidableEq, Repr

/-- Source `Strategy`. -/
inductive Strategy where
  | RandomFirst
  | RarestFirst
  deriving DecidableEq, Repr

/-- Source `PieceIndex` record (the field the source calls `partial` is
named `partialFlag` here; it is written once and never read). -/
structure PieceIndexData where
  availability : Nat
  partialFlag : Bool
  status : PieceStatus
  size : Nat
  deriving DecidableEq, Repr

/-- Source `BlockInfo`. -/
structure BlockInfo where
  index : Nat
  begin_ : Nat
  length : Nat
  deriving DecidableEq, Repr

/-- Source `Block` (payload bytes as a list of byte values). -/
structure Block where
  index : Nat
  begin_ : Nat
  data : List Nat
  deriving DecidableEq, Repr

/-- Source `PiecePicker`. -/
structure PiecePicker where
  peer_bitifield : List (Addr × BitField)
  total_pieces : Nat
  pieces : List PieceIndexData
  pick_strategy : Strategy
  deriving DecidableEq, Repr

/-- Source `impl From<Arc<TorrentInfo>> for PiecePicker`: one entry per
piece, zero availability, `NotRequested`, initial strategy `RandomFirst`.
`sizes` stands for `[torrent.get_piece_len i | i < total]` (the
`TorrentInfo` accessors live outside the embedded crate sources). -/
def PiecePicker.init (sizes : List Nat) : PiecePicker :=
  { peer_bitifield := []
    total_pieces := sizes.length
    pieces := sizes.map (fun sz => ⟨0, false, .NotRequested, sz⟩)
    pick_strategy := .RandomFirst }

/-- Helper for `register_peer`'s `iter_mut().enumerate()` loop: bump
availability of every piece (from running index `i0`) whose bit is set. -/
def bumpAvail (bf : BitField) : Nat → List PieceIndexData → List PieceIndexData
  | _, [] => []
  | i0, pc :: t =>
    (if bf.has_piece i0 then { pc with availability := pc.availability + 1 } else pc)
      :: bumpAvail bf (i0 + 1) t

/-- Helper for `unregister_peer`'s loop: decrement availability of every
piece whose bit is set, saturating at zero (`piece.availability > 0` guard). -/
def dropAvail (bf : BitField) : Nat → List PieceIndexData → List PieceIndexData
  | _, [] => []
  | i0, pc :: t =>
    (if bf.has_piece i0 ∧ pc.availability > 0 then
        { pc with availability := pc.availability - 1 } else pc)
      :: dropAvail bf (i0 + 1) t

/-- Increment availability at one index (`self.pieces[idx].availability += 1`). -/
def incrAvailAt : Nat → List PieceIndexData → List PieceIndexData
  | _, [] => []
  | 0, pc :: t => { pc with availability := pc.availability + 1 } :: t
  | n + 1, pc :: t => pc :: incrAvailAt n t

/-- Source `PiecePicker::register_peer`. -/
def PiecePicker.register_peer (s : PiecePicker) (peer : Addr) (bitfield : BitField) :
    PiecePicker :=
  { s with
    pieces := bumpAvail bitfield 0 s.pieces
    peer_bitifield := mapInsert s.peer_bitifield peer bitfield }

/-- Source `PiecePicker::update_peer`.  The source indexes
`self.pieces[piece_index as usize]` without a bounds check; `none`
models the resulting panic. -/
def PiecePicker.update_peer (s : PiecePicker) (peer : Addr) (piece_index : Nat) :
    Option PiecePicker :=
  match mapLookup s.peer_bitifield peer with
  | none => some s
  | some bitfield =>
    if bitfield.has_piece piece_index then some s
    else if piece_index < s.pieces.length then
      some { s with
              peer_bitifield :=
                mapInsert s.peer_bitifield peer (bitfield.set_piece piece_index)
              pieces := incrAvailAt piece_index s.pieces }
    else none

/-- Source `PiecePicker::unregister_peer`. -/
def PiecePicker.unregister_peer (s : PiecePicker) (peer : Addr) : PiecePicker :=
  match mapLookup s.peer_bitifield peer with
  | none => s
  | some bitfield =>
    { s with
      peer_bitifield := mapRemove s.peer_bitifield peer
      pieces := dropAvail bitfield 0 s.pieces }

/-- Source private `PiecePicker::mark_piece`: set the status of an index
when in range (`get_mut`), no-op otherwise. -/
def PiecePicker.mark_piece (s : PiecePicker) (piece_idx : Nat) (new_state : PieceStatus) :
    PiecePicker :=
  if h : piece_idx < s.pieces.length then
    { s with pieces :=
        (s.pieces.set piece_idx
          { s.pieces.get ⟨piece_idx, h⟩ with status := new_state }) }
  else s

/-- Source `PiecePicker::mark_piece_downloaded`: mark `Download`, and
switch to `RarestFirst` once exactly four pieces are downloaded. -/
def PiecePicker.mark_piece_downloaded (s : PiecePicker) (piece_idx : Nat) : PiecePicker :=
  let s := s.mark_piece piece_idx .Download
  if s.pick_strategy ≠ .RarestFirst ∧
      (s.pieces.filter (fun p => p.status = .Download)).length = 4 then
    { s with pick_strategy := .RarestFirst }
  else s

/-- Source `PiecePicker::check_interest`. -/
def PiecePicker.check_interest (s : PiecePicker) (peer : Addr) : Bool :=
  match mapLookup s.peer_bitifield peer with
  | none => false
  | some peer_bf =>
    (List.range s.pieces.length).any (fun i =>
      ((s.pieces.getD i ⟨0, false, .NotRequested, 0⟩).status ≠ .Download)
        ∧ peer_bf.has_piece i)

/-- Source `PiecePicker::all_pieces_downloaded`. -/
def PiecePicker.all_pieces_downloaded (s : PiecePicker) : Bool :=
  s.pieces.all (fun p => p.status = .Download)

/-- Canonical block size, source `PiecePicker::BLOCK_SIZE = 1 << 14`. -/
def BLOCK_SIZE : Nat := 1 <<< 14

/-- Source `PiecePicker::get_blocks`: offsets `0, 2^14, 2^14*2, …` below the
piece size (`(0..piece_size).step_by(BLOCK_SIZE)`), each block of length
`min(BLOCK_SIZE, piece_size - offset)`. -/
def PiecePicker.get_blocks (s : PiecePicker) (piece_idx : Nat) : List BlockInfo :=
  let piece_size := (s.pieces.getD piece_idx ⟨0, false, .NotRequested, 0⟩).size
  (List.range ((piece_size + (BLOCK_SIZE - 1)) / BLOCK_SIZE)).map (fun j =>
    ⟨piece_idx, j * BLOCK_SIZE, min BLOCK_SIZE (piece_size - j * BLOCK_SIZE)⟩)

/-- Rust `Iterator::min_by_key` on a non-empty list: the first element with
minimal key. -/
def minByKeyAux (f : Nat → Nat) : Nat → List Nat → Nat
  | a, [] => a
  | a, x :: t => if f x < f a then minByKeyAux f x t else minByKeyAux f a t

/-- Rust `Iterator::min_by_key`: `none` exactly on the empty list. -/
def minByKey (f : Nat → Nat) : List Nat → Option Nat
  | [] => none
  | x :: t => some (minByKeyAux f x t)

/-- Availability of piece `i` as read by `pick_piece` (`self.pieces[*i].availability`). -/
def PiecePicker.availabilityAt (s : PiecePicker) (i : Nat) : Nat :=
  (s.pieces.getD i ⟨0, false, .NotRequested, 0⟩).availability

/-- Source candidate set of `pick_piece` for a given peer bitfield:
indices whose status is `NotRequested` and which the peer has. -/
def PiecePicker.candidates (s : PiecePicker) (peer_bf : BitField) : List Nat :=
  (List.range s.pieces.length).filter (fun i =>
    (s.pieces.getD i ⟨0, false, .NotRequested, 0⟩).status = .NotRequested
      ∧ peer_bf.has_piece i)

/-- Source `PiecePicker::pick_piece`.  `IteratorRandom::choose(rng)` in the
`RandomFirst` arm returns an arbitrary element of the candidate list
(`none` exactly when it is empty); it is modelled by the oracle `r`
selecting the element at position `r % len`.  The chosen piece is marked
`Requested` and its block list is returned. -/
def PiecePicker.pick_piece (s : PiecePicker) (r : Nat) (peer : Addr) :
    Option (List BlockInfo) × PiecePicker :=
  match mapLookup s.peer_bitifield peer with
  | none => (none, s)
  | some peer_bitfield =>
    let candidate_pieces := s.candidates peer_bitfield
    let piece_index :=
      match s.pick_strategy with
      | .RandomFirst =>
        if h : candidate_pieces.length = 0 then none
        else some (candidate_pieces.get ⟨r % candidate_pieces.length, Nat.mod_lt r (Nat.pos_of_ne_zero h)⟩)
      | .RarestFirst => minByKey s.availabilityAt candidate_pieces
    match piece_index with
    | none => (none, s)
    | some k => (some (s.get_blocks k), s.mark_piece k .Requested)

/-- Operations a supervisor performs on the picker while peers come and go. -/
inductive PickerOp where
  | register (peer : Addr) (bf : BitField)
  | update (peer : Addr) (piece_index : Nat)
  | unregister (peer : Addr)
  deriving DecidableEq, Repr

/-- Run one picker operation; `none` models a panic inside `update_peer`. -/
def PiecePicker.execOp (s : PiecePicker) : PickerOp → Option PiecePicker
  | .register p bf => some (s.register_peer p bf)
  | .update p i => s.update_peer p i
  | .unregister p => some (s.unregister_peer p)

/-- Run a sequence of picker operations. -/
def PiecePicker.execOps (s : PiecePicker) : List PickerOp → Option PiecePicker
  | [] => some s
  | op :: t => match s.execOp op with
    | none => none
    | some s' => s'.execOps t

/-- Number of currently-registered peers whose stored bitfield has bit `i`. -/
def PiecePicker.countHas (s : PiecePicker) (i : Nat) : Nat :=
  (s.peer_bitifield.filter (fun e => e.2.has_piece i)).length

/-- Validity discipline on an operation sequence: `register_peer` is only
invoked for peers not currently registered, and always with a bitfield
sized and shaped for this torrent (the supervisor only registers
wire-validated bitfields of `get_total_pieces()` bits). -/
def PiecePicker.validOps (s : PiecePicker) : List PickerOp → Bool
  | [] => true
  | .register p bf :: t =>
    (mapLookup s.peer_bitifield p).isNone
      ∧ bf.total_pieces = s.total_pieces ∧ bf.WF
      ∧ ((s.register_peer p bf).validOps t)
  | op :: t =>
    match s.execOp op with
    | none => true
    | some s' => s'.validOps t

/-! ### `piece_cache.rs` -/

/-- Source `PieceMetadata`. -/
structure PieceMetadata where
  buffer : List Nat
  piece_length : Nat
  downloaded : Nat
  deriving DecidableEq, Repr

/-- Source `PieceCache` (`HashMap<usize, PieceMetadata>` keyed by piece index). -/
structure PieceCache where
  piece_map : List (Addr × PieceMetadata)
  deriving DecidableEq, Repr

/-- Source `impl From<Arc<TorrentInfo>> for PieceCache`: one zero-filled
buffer per piece; `sizes` stands for `[get_piece_len i | i < total]`. -/
def PieceCache.init (sizes : List Nat) : PieceCache :=
  ⟨(List.range sizes.length).map (fun i =>
    (i, ⟨List.replicate (sizes.getD i 0) 0, sizes.getD i 0, 0⟩))⟩

/-- Overwrite `buffer[offset .. offset + data.length]` with `data`
(`copy_from_slice`); callers establish `offset + data.length ≤ buffer.length`. -/
def spliceBytes (buffer : List Nat) (offset : Nat) (data : List Nat) : List Nat :=
  buffer.take offset ++ data ++ buffer.drop (offset + data.length)

/-- Source `PieceCache::insert_block`.  The outer `Option` models the panic
of the slice write when `begin + data.len() > buffer.len()`; the inner
`Option` is the source's return value (`Some` exactly on completion, in
which case the entry is removed from the map).  A `?` failure of the map
lookup is the source returning `None` with the cache unchanged. -/
def PieceCache.insert_block (c : PieceCache) (block : Block) :
    Option (PieceCache × Option (Nat × List Nat)) :=
  match mapLookup c.piece_map block.index with
  | none => some (c, none)
  | some piece =>
    if block.begin_ + block.data.length ≤ piece.buffer.length then
      let buffer' := spliceBytes piece.buffer block.begin_ block.data
      let downloaded' := piece.downloaded + block.data.length
      if downloaded' = piece.piece_length then
        some (⟨mapRemove c.piece_map block.index⟩, some (block.index, buffer'))
      else
        some (⟨mapInsert c.piece_map block.index ⟨buffer', piece.piece_length, downloaded'⟩⟩,
              none)
    else none

/-! ### `torrent_session.rs` (supervisor piece handling) -/

/-- Supervisor state relevant to piece handling: the picker, the local
bitfield, and a ghost log of the `IOMessage::WriteBlock` messages sent to
the disk actor (offset and data). -/
structure TorrentState where
  piece_manager : PiecePicker
  bitfield : BitField
  disk_writes : List (Nat × List Nat)
  deriving DecidableEq, Repr

/-- Source `Torrent::piece_validation`: compare `sha1(data)` with the
expected `PieceHash` at `piece_idx`.  `sha1` is kept abstract (a parameter);
`none` models the `expect("Valid piece index")` panic on an out-of-range
index. -/
def piece_validation (sha1 : List Nat → List Nat) (pieces : List (List Nat))
    (piece_idx : Nat) (piece_data : List Nat) : Option Bool :=
  match pieces.get? piece_idx with
  | none => none
  | some expected => some (sha1 piece_data = expected)

/-- Source `Torrent::try_write_piece`: validate, and on success submit the
disk write, `mark_piece_downloaded`, and set the local bitfield bit.  On
validation failure it only logs and returns (the source carries a
`// BUG: Re-queue piece or penalize peer` comment there). -/
def TorrentState.try_write_piece (sha1 : List Nat → List Nat)
    (torrent_pieces : List (List Nat)) (piece_length : Nat)
    (s : TorrentState) (piece : Nat × List Nat) : Option TorrentState :=
  let piece_idx := piece.1
  let piece_data := piece.2
  match piece_validation sha1 torrent_pieces piece_idx piece_data with
  | none => none
  | some false => some s
  | some true =>
    some { s with
      disk_writes := s.disk_writes ++ [(piece_idx * piece_length, piece_data)]
      piece_manager := s.piece_manager.mark_piece_downloaded piece_idx
      bitfield := s.bitfield.set_piece piece_idx }

/-! ### `peer/mod.rs` (PeerSession state machine)

The session's network side is modelled as a transition system: each
inbound wire message is an event, and the data the session receives back
from the supervisor over oneshot channels (the interest verdict and the
`GetTask` reply) are oracle components of the event.  Besides the source
fields, the state carries ghost instrumentation recording the session's
observable output: every REQUEST sent, every inbound PIECE matched
against an outstanding request, and how many `GetTask` messages were sent
to the supervisor.  The ghosts are write-only and never influence the
transition.  An execution result of `none` means the session terminated
(error return or panic: invalid bitfield, or the `todo!()` arms for
Interested/NotInterested). -/

/-- Source `PeerInfo` (state fields), plus ghost instrumentation.
`total_pieces` stands for `self.torrent.get_total_pieces()`. -/
structure PeerInfo where
  am_interested : Bool
  am_choking : Bool
  remote_interested : Bool
  remote_choking : Bool
  outgoing_requests : List BlockInfo
  blocks_to_request : Option (List BlockInfo)
  total_pieces : Nat
  sent_requests : List BlockInfo
  matched_pieces : List BlockInfo
  get_task_count : Nat
  deriving DecidableEq, Repr

/-- Source `PeerInfo::new` (ghosts empty). -/
def PeerInfo.new (total_pieces : Nat) : PeerInfo :=
  { am_interested := false
    am_choking := true
    remote_interested := false
    remote_choking := false
    outgoing_requests := []
    blocks_to_request := none
    total_pieces := total_pieces
    sent_requests := []
    matched_pieces := []
    get_task_count := 0 }

/-- Source `PIPELINE_CAP` (`PeerInfo::THRESHOLD`). -/
def THRESHOLD : Nat := 5

/-- `HashSet::insert`: add the element unless already present. -/
def hashsetInsert (b : BlockInfo) (s : List BlockInfo) : List BlockInfo :=
  if b ∈ s then s else s ++ [b]

/-- The `while let Some(block_info) = blocks_to_request.pop()` loop of
`try_request`, on the reversed cache: `Vec::pop` takes the last element,
which is the head of the reversed list.  Each popped block is sent as a
REQUEST (recorded in `sent`) and inserted into `outgoing`; the loop stops
once the cache is drained or `|outgoing| ≥ THRESHOLD`.  Returns the
remaining (still reversed) cache, the outgoing set and the send log. -/
def requestLoopRev : List BlockInfo → List BlockInfo → List BlockInfo →
    List BlockInfo × List BlockInfo × List BlockInfo
  | [], outgoing, sent => ([], outgoing, sent)
  | block_info :: rest, outgoing, sent =>
    let outgoing' := hashsetInsert block_info outgoing
    let sent' := sent ++ [block_info]
    if THRESHOLD ≤ outgoing'.length then (rest, outgoing', sent')
    else requestLoopRev rest outgoing' sent'

/-- The request loop on the cache in `Vec` order. -/
def requestLoop (blocks outgoing sent : List BlockInfo) :
    List BlockInfo × List BlockInfo × List BlockInfo :=
  let r := requestLoopRev blocks.reverse outgoing sent
  (r.1.reverse, r.2)

/-- Source `PeerInfo::get_tasks`: send `GetTask`, await the reply and store
it in `blocks_to_request`. -/
def PeerInfo.get_tasks (s : PeerInfo) (taskResp : Option (List BlockInfo)) : PeerInfo :=
  { s with blocks_to_request := taskResp, get_task_count := s.get_task_count + 1 }

/-- Source `PeerInfo::try_request`. -/
def PeerInfo.try_request (s : PeerInfo) (taskResp : Option (List BlockInfo)) : PeerInfo :=
  if !s.remote_choking ∧ s.am_interested then
    if THRESHOLD ≤ s.outgoing_requests.length then s
    else
      let s1 := if s.blocks_to_request.isNone then s.get_tasks taskResp else s
      match s1.blocks_to_request with
      | none => s1
      | some blocks =>
        let res := requestLoop blocks s1.outgoing_requests s1.sent_requests
        { s1 with
          blocks_to_request := some res.1
          outgoing_requests := res.2.1
          sent_requests := res.2.2 }
  else s

/-- One inbound wire message together with the supervisor's oracle replies. -/
inductive PeerEvent where
  | keepAlive
  | bitfieldMsg (bytes : List Nat) (verdict : Bool) (taskResp : Option (List BlockInfo))
  | choke
  | unchoke (taskResp : Option (List BlockInfo))
  | interestedMsg
  | notInterestedMsg
  | haveMsg (piece_index : Nat) (verdict : Bool) (taskResp : Option (List BlockInfo))
  | requestMsg
  | pieceMsg (block : Block) (taskResp : Option (List BlockInfo))
  | cancelMsg
  deriving Repr

/-- Source `PeerInfo::handle_msg`; `none` models session termination
(the `Err` return on an invalid bitfield, and the `todo!()` panics in the
Interested / NotInterested arms). -/
def PeerInfo.handle_msg (s : PeerInfo) : PeerEvent → Option PeerInfo
  | .keepAlive => some s
  | .bitfieldMsg bytes verdict taskResp =>
    match BitField.tryFrom bytes s.total_pieces with
    | .error _ => none
    | .ok _ =>
      if verdict then
        some (({ s with am_interested := true }).try_request taskResp)
      else some s
  | .choke => some { s with remote_choking := true }
  | .unchoke taskResp =>
      some (({ s with remote_choking := false }).try_request taskResp)
  | .interestedMsg => none
  | .notInterestedMsg => none
  | .haveMsg _ verdict taskResp =>
    if s.am_interested then some s
    else if verdict then
      some (({ s with am_interested := true }).try_request taskResp)
    else some s
  | .requestMsg => some s
  | .pieceMsg block taskResp =>
    let info : BlockInfo := ⟨block.index, block.begin_, block.data.length⟩
    if info ∈ s.outgoing_requests then
      some (({ s with
                outgoing_requests := s.outgoing_requests.erase info
                matched_pieces := s.matched_pieces ++ [info] }).try_request taskResp)
    else some s
  | .cancelMsg => some s

/-- Run a sequence of inbound events through the session. -/
def PeerInfo.execEvents (s : PeerInfo) : List PeerEvent → Option PeerInfo
  | [] => some s
  | ev :: t => match s.handle_msg ev with
    | none => none
    | some s' => s'.execEvents t

/-! ### `metainfo.rs` (`Torrent::get_total_pieces`)

The source computes `(self.info.length as f64 / self.info.piece_length
as f64).ceil() as u32`.  IEEE-754 binary64 arithmetic on the values in
range here (positive, far below overflow and subnormal thresholds) is
modelled exactly over `ℚ`: `roundF64pos` is round-to-nearest, ties-to-even
at 53 significand bits, an `as f64` cast of a non-negative integer and the
correctly-rounded division both reduce to it, `.ceil()` is exact on any
binary64 value, and `as u32` is the saturating float-to-int cast. -/

/-- Round a rational to the nearest integer, ties to even. -/
def roundScaled (s : ℚ) : ℤ :=
  if s - (⌊s⌋ : ℚ) < 1/2 then ⌊s⌋
  else if 1/2 < s - (⌊s⌋ : ℚ) then ⌊s⌋ + 1
  else if 2 ∣ ⌊s⌋ then ⌊s⌋ else ⌊s⌋ + 1

/-- Round a positive rational to 53 significand bits, nearest, ties to even:
scale into `[2^52, 2^53)` by the power of two given by the floor log,
round to an integer significand, and scale back. -/
def roundF64pos (q : ℚ) : ℚ :=
  (roundScaled (q * (2 : ℚ) ^ ((52 : ℤ) - Int.log 2 q)) : ℚ) *
    (2 : ℚ) ^ (Int.log 2 q - 52)

/-- The binary64 value of `n as f64` for a non-negative integer. -/
def f64ofNat (n : Nat) : ℚ :=
  if n = 0 then 0 else roundF64pos n

/-- Correctly rounded binary64 division (positive finite operands). -/
def f64div (x y : ℚ) : ℚ :=
  if x = 0 then 0 else roundF64pos (x / y)

/-- Binary64 `ceil`, exact on every finite value. -/
def f64ceil (q : ℚ) : ℚ := (⌈q⌉ : ℚ)

/-- Rust saturating `as u32` cast from a (non-NaN, here non-negative finite)
binary64 value: truncate toward zero, clamp to `[0, 2^32 - 1]`. -/
def u32cast (q : ℚ) : Nat := min ⌊q⌋.toNat (2 ^ 32 - 1)

/-- Source `Torrent::get_total_pieces`
(`(length as f64 / piece_length as f64).ceil() as u32`). -/
def get_total_pieces (length piece_length : Nat) : Nat :=
  u32cast (f64ceil (f64div (f64ofNat length) (f64ofNat piece_length)))

/-! ### Concrete states used by the claim evaluations -/

/-- Supervisor state with one piece of size 2 that has been picked
(status `Requested`), nothing on disk, empty local bitfield. -/
def c1_state : TorrentState :=
  { piece_manager := (PiecePicker.init [2]).mark_piece 0 .Requested
    bitfield := BitField.new 1
    disk_writes := [] }

/-- Peer session state in which Try-Request's guards all pass
(`peer_choking = false`, `am_interested = true`, `|outstanding| < 5`) and
the cached block list is a fully drained grant `Some([])`. -/
def c7_state : PeerInfo :=
  { am_interested := true
    am_choking := true
    remote_interested := false
    remote_choking := false
    outgoing_requests := []
    blocks_to_request := some []
    total_pieces := 4
    sent_requests := []
    matched_pieces := []
    get_task_count := 0 }

/-- Bitfield for a 1-piece torrent with bit 0 set (well-formed). -/
def c2_bf : BitField := ⟨1, [128]⟩

/-- Cache state for a single piece of size 2 after one 1-byte block. -/
def c6_cache1 : PieceCache := ⟨[(0, ⟨[7, 0], 2, 1⟩)]⟩

/-- Outgoing-request pipeline invariant of a peer session: at most
`THRESHOLD` outstanding requests, no duplicates, and every block's matched
PIECE receipts (plus one for each copy still outstanding) are covered by
REQUESTs actually sent. -/
def pipelineInv (s : PeerInfo) : Prop :=
  s.outgoing_requests.length ≤ THRESHOLD ∧
  s.outgoing_requests.Nodup ∧
  ∀ b : BlockInfo, s.matched_pieces.count b +
    (if b ∈ s.outgoing_requests then 1 else 0) ≤ s.sent_requests.count b

/-- Inductive invariant of the piece picker under the supervisor's use:
registered-peer keys are duplicate-free, every stored bitfield is
well-formed and sized for this torrent, the piece table has one entry per
piece, and every availability counter equals the number of currently
registered peers having that piece. -/
def PickerInv (s : PiecePicker) : Prop :=
  (s.peer_bitifield.map Prod.fst).Nodup ∧
  (∀ e ∈ s.peer_bitifield, e.2.total_pieces = s.total_pieces ∧ e.2.WF) ∧
  s.pieces.length = s.total_pieces ∧
  ∀ i, s.availabilityAt i = s.countHas i

/-- A concrete picker-operation trace: two registrations, one Have update,
and a double unregister. -/
def c2ops : List PickerOp :=
  [.register 5 ⟨3, [0b10100000]⟩, .register 9 ⟨3, [0b00100000]⟩,
   .update 5 1, .unregister 9, .unregister 9]

/-- Bitfield of a peer having all four pieces of a 4-piece torrent. -/
def c8_bf : BitField := ⟨4, [0b11110000]⟩

/-- Picker for 4 pieces in `RarestFirst` mode with two registered peers:
peer 1 has every piece, peer 2 only piece 0, so availability is
`[2, 1, 1, 1]` and the rarest candidate for peer 1 is index 1. -/
def c8_state : PiecePicker :=
  { ((PiecePicker.init [8, 8, 8, 8]).register_peer 1 c8_bf).register_peer 2 ⟨4, [0b10000000]⟩
    with pick_strategy := .RarestFirst }

/-- A concrete inbound-event trace: the peer announces pieces 0-3, we get
interested, the supervisor grants seven two-byte blocks of piece 0, then the peer
delivers the block at offset 12. -/
def c4_events : List PeerEvent :=
  [.bitfieldMsg [0b11110000] true
      (some [⟨0, 0, 2⟩, ⟨0, 2, 2⟩, ⟨0, 4, 2⟩, ⟨0, 6, 2⟩, ⟨0, 8, 2⟩,
        ⟨0, 10, 2⟩, ⟨0, 12, 2⟩]),
    .pieceMsg ⟨0, 12, [7, 7]⟩ none]

/-- The session state after running `c4_events` from a fresh session. -/
def c4_final : PeerInfo :=
  ((PeerInfo.new 4).execEvents c4_events).getD (PeerInfo.new 0)

/-! ## Theorems -/

/-- Claim C5: the claim states that a freshly constructed `PeerInfo` has
⟨am_choking, am_interested, peer_choking, peer_interested⟩ =
⟨true, false, true, false⟩, peer_choking starting `true`.  The source's
`PeerInfo::new` in fact initializes `remote_choking` (peer_choking) to
`false`: the initial vector is ⟨true, false, false, false⟩, so nothing
prevents REQUESTs from being sent before any Unchoke arrives. -/
theorem peerInfo_new_initial_flags (n : Nat) :
    (PeerInfo.new n).am_choking = true ∧ (PeerInfo.new n).am_interested = false ∧
      (PeerInfo.new n).remote_choking = false ∧ (PeerInfo.new n).remote_interested = false :=
  ⟨rfl, rfl, rfl, rfl⟩

/-- Claim C1: on a completed piece whose bytes do not hash to the expected
`PieceHash`, `try_write_piece` indeed submits no disk write, calls no
`mark_piece_downloaded` and leaves the local bitfield bit clear — the
returned state is unchanged — but it does NOT reset the piece's status to
`NotRequested`: with the expected hash `[9]` and data `[1, 2]` (hash
function taken as the identity, so the hashes differ), a piece previously
marked `Requested` stays `Requested`.  The source carries a
`// BUG: Re-queue piece or penalize peer` comment at exactly this spot. -/
theorem try_write_piece_invalid_hash_no_reset :
    c1_state.try_write_piece (fun l => l) [[9]] 2 (0, [1, 2]) = some c1_state ∧
      (c1_state.piece_manager.pieces.getD 0 ⟨0, false, .NotRequested, 0⟩).status = .Requested ∧
      c1_state.disk_writes = [] ∧
      c1_state.bitfield.has_piece 0 = false := by
  refine ⟨rfl, rfl, rfl, rfl⟩

/-- Claim C3: the supervisor's handling of peer events is NOT total.
`update_peer` with `piece_index = total_pieces` for a registered peer
panics (`self.pieces[piece_index]` is out of bounds: here one piece,
index 1), and `insert_block` with `begin + data.len() > piece_size`
panics in the slice write (piece size 2, `begin = 1`, two data bytes);
`none` is the embedding of the panic. -/
theorem update_peer_and_insert_block_panic :
    ((PiecePicker.init [8]).register_peer 1 (BitField.new 1)).update_peer 1 1 = none ∧
      (PieceCache.init [2]).insert_block ⟨0, 1, [5, 5]⟩ = none := by
  exact ⟨rfl, rfl⟩

/-- Claim C7: when a previous grant has been fully drained
(`blocks_to_request = Some([])`), `try_request` does NOT request a new
task from the supervisor even though the cached block list holds no
blocks: the source only fetches when the cache is `None`
(`blocks_to_request.is_none()`).  With every guard satisfied and a task
available from the supervisor, the state is returned unchanged — no
`GetTask` is sent (`get_task_count` stays 0) and no REQUEST goes out. -/
theorem try_request_drained_grant_no_new_task :
    c7_state.remote_choking = false ∧ c7_state.am_interested = true ∧
      c7_state.outgoing_requests.length < THRESHOLD ∧
      c7_state.blocks_to_request = some [] ∧
      c7_state.try_request (some [⟨0, 0, 16384⟩]) = c7_state ∧
      c7_state.get_task_count = 0 ∧ c7_state.sent_requests = [] := by
  exact ⟨rfl, rfl, by decide, rfl, rfl, rfl, rfl⟩

/-- Claim C2 counterexample: the claimed availability invariant does not
hold after every finite sequence of picker operations.  Registering the
same peer twice (`register_peer` increments availability before blindly
replacing the stored bitfield) leaves `availability[0] = 2` while only
one registered peer has bit 0. -/
theorem register_peer_twice_overcounts :
    (((PiecePicker.init [8]).execOps [.register 7 c2_bf, .register 7 c2_bf]).getD
        (PiecePicker.init [])).availabilityAt 0 = 2 ∧
      (((PiecePicker.init [8]).execOps [.register 7 c2_bf, .register 7 c2_bf]).getD
        (PiecePicker.init [])).countHas 0 = 1 := by
  exact ⟨rfl, rfl⟩

/-- Claim C6 counterexample: `insert_block` does not return `Some` whenever
the cumulative downloaded count reaches the piece size — the source tests
`downloaded == piece_length`, not `≥`.  For a piece of size 2, inserting
one byte and then an overlapping two-byte block drives `downloaded` to 3
(`≥ 2`), yet the call returns no completed piece (and the buffer stays in
the map). -/
theorem insert_block_overshoot_returns_none :
    (PieceCache.init [2]).insert_block ⟨0, 0, [7]⟩ = some (c6_cache1, none) ∧
      c6_cache1.insert_block ⟨0, 0, [8, 9]⟩ = some (⟨[(0, ⟨[8, 9], 2, 3⟩)]⟩, none) ∧
      2 ≤ 1 + 2 := by
  exact ⟨rfl, rfl, by decide⟩

/-! Association-list lemmas. -/

theorem mapLookup_eq_none_iff {β : Type} (m : List (Addr × β)) (p : Addr) :
    mapLookup m p = none ↔ p ∉ m.map Prod.fst := by
  induction m with
  | nil => simp [mapLookup]
  | cons e t ih =>
    obtain ⟨q, v⟩ := e
    by_cases hq : q = p
    · subst hq
      simp [mapLookup]
    · simp [mapLookup, hq, ih, Ne.symm hq]

theorem mapLookup_mem {β : Type} {m : List (Addr × β)} {p : Addr} {v : β}
    (h : mapLookup m p = some v) : (p, v) ∈ m := by
  induction m with
  | nil => simp [mapLookup] at h
  | cons e t ih =>
    obtain ⟨q, w⟩ := e
    by_cases hq : q = p
    · subst hq
      simp [mapLookup] at h
      simp [h]
    · simp [mapLookup, hq] at h
      simp [ih h]

theorem mapInsert_absent {β : Type} {m : List (Addr × β)} {p : Addr} (v : β)
    (h : mapLookup m p = none) : mapInsert m p v = m ++ [(p, v)] := by
  induction m with
  | nil => rfl
  | cons e t ih =>
    obtain ⟨q, w⟩ := e
    by_cases hq : q = p
    · subst hq; simp [mapLookup] at h
    · simp [mapLookup, hq] at h
      simp [mapInsert, hq, ih h]

theorem mem_mapInsert {β : Type} {m : List (Addr × β)} {p : Addr} {v : β} {e : Addr × β}
    (h : e ∈ mapInsert m p v) : e = (p, v) ∨ e ∈ m := by
  induction m with
  | nil =>
    simp [mapInsert] at h
    exact Or.inl h
  | cons hd t ih =>
    obtain ⟨q, w⟩ := hd
    by_cases hq : q = p
    · subst hq
      simp [mapInsert] at h
      rcases h with h | h
      · exact Or.inl h
      · exact Or.inr (List.mem_cons_of_mem _ h)
    · simp [mapInsert, hq] at h
      rcases h with h | h
      · exact Or.inr (by simp [h])
      · rcases ih h with h' | h'
        · exact Or.inl h'
        · exact Or.inr (List.mem_cons_of_mem _ h')

theorem keys_mapInsert_present {β : Type} {m : List (Addr × β)} {p : Addr} {w : β} (v : β)
    (h : mapLookup m p = some w) :
    (mapInsert m p v).map Prod.fst = m.map Prod.fst := by
  induction m with
  | nil => simp [mapLookup] at h
  | cons e t ih =>
    obtain ⟨q, u⟩ := e
    by_cases hq : q = p
    · subst hq; simp [mapInsert]
    · simp [mapLookup, hq] at h
      simp [mapInsert, hq, ih h]

theorem mapLookup_mapInsert {β : Type} (m : List (Addr × β)) (p : Addr) (v : β) (q : Addr) :
    mapLookup (mapInsert m p v) q = if p = q then some v else mapLookup m q := by
  induction m with
  | nil =>
    by_cases hq : p = q <;> simp [mapInsert, mapLookup, hq]
  | cons e t ih =>
    obtain ⟨a, w⟩ := e
    by_cases ha : a = p
    · subst ha
      by_cases hq : a = q
      · subst hq; simp [mapInsert, mapLookup]
      · simp [mapInsert, mapLookup, hq, ih]
    · by_cases hq : a = q
      · subst hq
        have : ¬ p = a := fun h => ha h.symm
        simp [mapInsert, ha, mapLookup, this]
      · simp [mapInsert, ha, mapLookup, hq, ih]

theorem mem_mapRemove {β : Type} {m : List (Addr × β)} {p : Addr} {e : Addr × β}
    (h : e ∈ mapRemove m p) : e ∈ m := by
  induction m with
  | nil =>
    simp [mapRemove] at h
  | cons hd t ih =>
    obtain ⟨q, w⟩ := hd
    by_cases hq : q = p
    · subst hq
      simp [mapRemove] at h
      exact List.mem_cons_of_mem _ h
    · simp [mapRemove, hq] at h
      rcases h with h | h
      · simp [h]
      · exact List.mem_cons_of_mem _ (ih h)

theorem keys_mapRemove_sublist {β : Type} (m : List (Addr × β)) (p : Addr) :
    ((mapRemove m p).map Prod.fst).Sublist (m.map Prod.fst) := by
  induction m with
  | nil => simp [mapRemove]
  | cons e t ih =>
    obtain ⟨q, w⟩ := e
    by_cases hq : q = p
    · subst hq
      simp only [mapRemove, if_pos rfl, List.map_cons]
      exact List.sublist_cons_self _ _
    · simp only [mapRemove, if_neg hq, List.map_cons]
      exact ih.cons₂ _

theorem mapLookup_mapRemove_self {β : Type} {m : List (Addr × β)} {p : Addr}
    (h : (m.map Prod.fst).Nodup) : mapLookup (mapRemove m p) p = none := by
  induction m with
  | nil => rfl
  | cons e t ih =>
    obtain ⟨q, w⟩ := e
    simp only [List.map_cons, List.nodup_cons] at h
    by_cases hq : q = p
    · subst hq
      simp only [mapRemove, if_pos rfl]
      rw [mapLookup_eq_none_iff]
      exact h.1
    · simp only [mapRemove, if_neg hq, mapLookup]
      exact ih h.2

theorem mapLookup_mapRemove_other {β : Type} (m : List (Addr × β)) (p q : Addr)
    (hq : p ≠ q) : mapLookup (mapRemove m p) q = mapLookup m q := by
  induction m with
  | nil => rfl
  | cons e t ih =>
    obtain ⟨a, w⟩ := e
    by_cases ha : a = p
    · subst ha
      have : ¬ a = q := fun h => hq h
      simp [mapRemove, mapLookup, this]
    · by_cases haq : a = q
      · subst haq; simp [mapRemove, ha, mapLookup]
      · simp [mapRemove, ha, mapLookup, haq, ih]

theorem filterLen_mapInsert_present {β : Type} (f : Addr × β → Bool)
    {m : List (Addr × β)} {p : Addr} {w : β} (v : β)
    (h : mapLookup m p = some w) (hnd : (m.map Prod.fst).Nodup) :
    ((mapInsert m p v).filter f).length + (if f (p, w) then 1 else 0) =
      (m.filter f).length + (if f (p, v) then 1 else 0) := by
  induction m with
  | nil => simp [mapLookup] at h
  | cons e t ih =>
    obtain ⟨q, u⟩ := e
    simp only [List.map_cons, List.nodup_cons] at hnd
    by_cases hq : q = p
    · subst hq
      simp only [mapLookup, eq_self_iff_true, if_true, Option.some.injEq] at h
      subst h
      simp only [mapInsert, eq_self_iff_true, if_true, List.filter_cons]
      by_cases hu : f (q, u) <;> by_cases hv : f (q, v) <;> simp [hu, hv]
    · simp only [mapLookup, if_neg hq] at h
      have hrec := ih h hnd.2
      simp only [mapInsert, if_neg hq, List.filter_cons]
      by_cases hu : f (q, u) <;> simp [hu] <;> omega

theorem filterLen_mapRemove {β : Type} (f : Addr × β → Bool)
    {m : List (Addr × β)} {p : Addr} {w : β}
    (h : mapLookup m p = some w) (hnd : (m.map Prod.fst).Nodup) :
    ((mapRemove m p).filter f).length + (if f (p, w) then 1 else 0) =
      (m.filter f).length := by
  induction m with
  | nil => simp [mapLookup] at h
  | cons e t ih =>
    obtain ⟨q, u⟩ := e
    simp only [List.map_cons, List.nodup_cons] at hnd
    by_cases hq : q = p
    · subst hq
      simp only [mapLookup, eq_self_iff_true, if_true, Option.some.injEq] at h
      subst h
      simp only [mapRemove, eq_self_iff_true, if_true, List.filter_cons]
      by_cases hu : f (q, u) <;> simp [hu]
    · simp only [mapLookup, if_neg hq] at h
      have hrec := ih h hnd.2
      simp only [mapRemove, if_neg hq, List.filter_cons]
      by_cases hu : f (q, u) <;> simp [hu] <;> omega

/-! Bitfield validation lemmas. -/

theorem mod_two_pow_ne_zero_iff (x k : Nat) :
    x % 2 ^ k ≠ 0 ↔ ∃ j, j < k ∧ x.testBit j := by
  constructor
  · intro h
    obtain ⟨i, hi⟩ := Nat.ne_zero_implies_bit_true h
    rw [Nat.testBit_mod_two_pow] at hi
    simp only [Bool.and_eq_true, decide_eq_true_eq] at hi
    exact ⟨i, hi.1, hi.2⟩
  · rintro ⟨j, hj, hbit⟩ h0
    have h := Nat.testBit_mod_two_pow x k j
    rw [h0, Nat.zero_testBit, hbit] at h
    simp [hj] at h

theorem spare_mask_iff (byte : Nat) (n : Nat) :
    (n % 8 ≠ 0 ∧ byte &&& (2 ^ (8 - n % 8) - 1) ≠ 0 ↔
      ∃ j, j < (8 - n % 8) % 8 ∧ byte.testBit j) := by
  by_cases hn : n % 8 = 0
  · simp [hn]
  · have hk : n % 8 < 8 := Nat.mod_lt _ (by norm_num)
    have hmod : (8 - n % 8) % 8 = 8 - n % 8 := Nat.mod_eq_of_lt (by omega)
    rw [hmod, Nat.and_pow_two_sub_one_eq_mod]
    constructor
    · rintro ⟨-, h⟩
      exact (mod_two_pow_ne_zero_iff byte (8 - n % 8)).mp h
    · intro h
      exact ⟨hn, (mod_two_pow_ne_zero_iff byte (8 - n % 8)).mpr h⟩

/-- Claim C9: for every byte string and piece count `n`, wire validation
returns `InvalidLength` iff the input is shorter than `ceil(n/8)` bytes;
returns `NonZeroSpareBits` iff it is long enough and either a spare bit of
the last meaningful byte (a position below `8 - n mod 8`, there being no
spare positions when `8 ∣ n`) is set or some byte beyond the first
`ceil(n/8)` is non-zero; and returns `Ok` otherwise. -/
theorem bitfield_tryFrom_spec (bytes : List Nat) (n : Nat) :
    (isInvalidLengthResult (BitField.tryFrom bytes n) = true ↔
      bytes.length < (n + 7) / 8) ∧
    (isNonZeroSpareResult (BitField.tryFrom bytes n) = true ↔
      ((n + 7) / 8 ≤ bytes.length ∧
        ((∃ j, j < (8 - n % 8) % 8 ∧
            Nat.testBit (bytes.getD ((n + 7) / 8 - 1) 0) j) ∨
          ∃ b ∈ bytes.drop ((n + 7) / 8), b ≠ 0))) ∧
    (isOkResult (BitField.tryFrom bytes n) = true ↔
      ((n + 7) / 8 ≤ bytes.length ∧
        ¬ (∃ j, j < (8 - n % 8) % 8 ∧
            Nat.testBit (bytes.getD ((n + 7) / 8 - 1) 0) j) ∧
        ¬ ∃ b ∈ bytes.drop ((n + 7) / 8), b ≠ 0)) := by
  simp only [BitField.tryFrom]
  by_cases hlen : bytes.length < (n + 7) / 8
  · rw [if_pos hlen]
    refine ⟨by simp [isInvalidLengthResult, hlen], ?_, ?_⟩
    · simp only [isNonZeroSpareResult, Bool.false_eq_true, false_iff]
      rintro ⟨h, -⟩
      omega
    · simp only [isOkResult, Bool.false_eq_true, false_iff]
      rintro ⟨h, -⟩
      omega
  · rw [if_neg hlen]
    have hlen' : (n + 7) / 8 ≤ bytes.length := le_of_not_lt hlen
    by_cases hspare : n % 8 ≠ 0 ∧
        (bytes.getD ((n + 7) / 8 - 1) 0) &&& (2 ^ (8 - n % 8) - 1) ≠ 0
    · rw [if_pos hspare]
      have hsp := (spare_mask_iff (bytes.getD ((n + 7) / 8 - 1) 0) n).mp hspare
      refine ⟨by simp [isInvalidLengthResult, hlen], ?_, ?_⟩
      · simp only [isNonZeroSpareResult, true_iff]
        exact ⟨hlen', Or.inl hsp⟩
      · simp only [isOkResult, Bool.false_eq_true, false_iff]
        rintro ⟨-, hno, -⟩
        exact hno hsp
    · rw [if_neg hspare]
      have hnosp : ¬ ∃ j, j < (8 - n % 8) % 8 ∧
          Nat.testBit (bytes.getD ((n + 7) / 8 - 1) 0) j := by
        intro h
        exact hspare ((spare_mask_iff _ n).mpr h)
      by_cases htrail : (bytes.drop ((n + 7) / 8)).any (fun b => b ≠ 0) = true
      · rw [if_pos htrail]
        have htr : ∃ b ∈ bytes.drop ((n + 7) / 8), b ≠ 0 := by
          rw [List.any_eq_true] at htrail
          simpa using htrail
        refine ⟨by simp [isInvalidLengthResult, hlen], ?_, ?_⟩
        · simp only [isNonZeroSpareResult, true_iff]
          exact ⟨hlen', Or.inr htr⟩
        · simp only [isOkResult, Bool.false_eq_true, false_iff]
          rintro ⟨-, -, hno⟩
          exact hno htr
      · rw [if_neg htrail]
        have hnotr : ¬ ∃ b ∈ bytes.drop ((n + 7) / 8), b ≠ 0 := by
          intro h
          apply htrail
          rw [List.any_eq_true]
          simpa using h
        refine ⟨by simp [isInvalidLengthResult, hlen], ?_, ?_⟩
        · simp only [isNonZeroSpareResult, Bool.false_eq_true, false_iff]
          rintro ⟨-, hsp | htr⟩
          · exact hnosp hsp
          · exact hnotr htr
        · simp only [isOkResult, true_iff]
          exact ⟨hlen', hnosp, hnotr⟩

/-! `min_by_key` and `pick_piece` lemmas. -/

theorem minByKeyAux_mem (f : Nat → Nat) (a : Nat) (t : List Nat) :
    minByKeyAux f a t ∈ a :: t := by
  induction t generalizing a with
  | nil => simp [minByKeyAux]
  | cons x t' ih =>
    rw [minByKeyAux]
    by_cases hlt : f x < f a
    · rw [if_pos hlt]
      rcases List.mem_cons.mp (ih x) with h | h
      · simp [h]
      · simp [List.mem_cons_of_mem, h]
    · rw [if_neg hlt]
      rcases List.mem_cons.mp (ih a) with h | h
      · simp [h]
      · simp [List.mem_cons_of_mem, h]

theorem minByKeyAux_le (f : Nat → Nat) (a : Nat) (t : List Nat) :
    ∀ y ∈ a :: t, f (minByKeyAux f a t) ≤ f y := by
  induction t generalizing a with
  | nil =>
    intro y hy
    rw [List.mem_singleton] at hy
    simp [minByKeyAux, hy]
  | cons x t' ih =>
    intro y hy
    rw [minByKeyAux]
    rw [List.mem_cons] at hy
    by_cases hlt : f x < f a
    · rw [if_pos hlt]
      rcases hy with hy | hy
      · have h := ih x x (by simp)
        rw [hy]
        omega
      · exact ih x y hy
    · rw [if_neg hlt]
      rcases hy with hy | hy
      · have h := ih a a (by simp)
        rw [hy]
        exact h
      · rw [List.mem_cons] at hy
        rcases hy with hy | hy
        · have h := ih a a (by simp)
          rw [hy]
          omega
        · exact ih a y (by simp [hy])

theorem minByKeyAux_tie (f : Nat → Nat) (a : Nat) (t : List Nat)
    (hp : (a :: t).Pairwise (· < ·)) :
    ∀ y ∈ a :: t, f y = f (minByKeyAux f a t) → minByKeyAux f a t ≤ y := by
  induction t generalizing a with
  | nil =>
    intro y hy _
    rw [List.mem_singleton] at hy
    simp [minByKeyAux, hy]
  | cons x t' ih =>
    have hax : a < x := (List.pairwise_cons.mp hp).1 x (by simp)
    have hpx : (x :: t').Pairwise (· < ·) := (List.pairwise_cons.mp hp).2
    have hpa : (a :: t').Pairwise (· < ·) := List.Pairwise.sublist (by simp) hp
    intro y hy htie
    rw [minByKeyAux] at htie ⊢
    rw [List.mem_cons] at hy
    by_cases hlt : f x < f a
    · rw [if_pos hlt] at htie ⊢
      rcases hy with hy | hy
      · exfalso
        have hle := minByKeyAux_le f x t' x (by simp)
        rw [hy] at htie
        omega
      · exact ih x hpx y hy htie
    · rw [if_neg hlt] at htie ⊢
      rcases hy with hy | hy
      · rw [hy] at htie ⊢
        exact ih a hpa a (by simp) htie
      · rw [List.mem_cons] at hy
        rcases hy with hy | hy
        · have h1 := minByKeyAux_le f a t' a (by simp)
          rw [hy] at htie
          have h2 : f (minByKeyAux f a t') = f a := by omega
          have h3 := ih a hpa a (by simp) h2.symm
          rw [hy]
          omega
        · exact ih a hpa y (by simp [hy]) htie

theorem minByKey_eq_none_iff (f : Nat → Nat) (l : List Nat) :
    minByKey f l = none ↔ l = [] := by
  cases l <;> simp [minByKey]

theorem minByKey_spec (f : Nat → Nat) (l : List Nat) (k : Nat)
    (h : minByKey f l = some k) :
    k ∈ l ∧ (∀ y ∈ l, f k ≤ f y) ∧
      (l.Pairwise (· < ·) → ∀ y ∈ l, f y = f k → k ≤ y) := by
  cases l with
  | nil => simp [minByKey] at h
  | cons a t =>
    simp only [minByKey, Option.some.injEq] at h
    subst h
    exact ⟨minByKeyAux_mem f a t, minByKeyAux_le f a t,
      fun hp => minByKeyAux_tie f a t hp⟩

theorem candidates_sorted (s : PiecePicker) (bf : BitField) :
    (s.candidates bf).Pairwise (· < ·) :=
  List.Pairwise.filter _ (List.pairwise_lt_range _)

theorem candidates_lt (s : PiecePicker) (bf : BitField) {k : Nat}
    (h : k ∈ s.candidates bf) : k < s.pieces.length := by
  unfold PiecePicker.candidates at h
  rw [List.mem_filter] at h
  exact List.mem_range.mp h.1

/-- Claim C8: `pick_piece(addr)` returns `None` exactly when `addr` is
unknown or the candidate set (NotRequested pieces the peer has) is empty,
in which case the picker is unchanged; otherwise the chosen piece `k` is a
candidate, its status is set to `Requested`, its block list is returned,
and under the `RarestFirst` strategy `k` minimizes availability over the
candidates with ties broken by the smallest index.  (`RandomFirst`'s rng
choice is modelled by the oracle `r`.) -/
theorem pick_piece_spec (s : PiecePicker) (r : Nat) (p : Addr) :
    (mapLookup s.peer_bitifield p = none → s.pick_piece r p = (none, s)) ∧
    (∀ bf, mapLookup s.peer_bitifield p = some bf →
      (((s.pick_piece r p).1 = none ↔ s.candidates bf = []) ∧
        ((s.pick_piece r p).1 = none → (s.pick_piece r p).2 = s) ∧
        (∀ blocks, (s.pick_piece r p).1 = some blocks →
          ∃ k, k ∈ s.candidates bf ∧
            blocks = s.get_blocks k ∧
            (s.pick_piece r p).2 = s.mark_piece k .Requested ∧
            ((s.pick_piece r p).2.pieces.getD k ⟨0, false, .NotRequested, 0⟩).status =
              .Requested ∧
            (s.pick_strategy = .RarestFirst →
              (∀ j ∈ s.candidates bf, s.availabilityAt k ≤ s.availabilityAt j) ∧
              (∀ j ∈ s.candidates bf,
                s.availabilityAt j = s.availabilityAt k → k ≤ j))))) := by
  constructor
  · intro h
    simp only [PiecePicker.pick_piece, h]
  · intro bf hbf
    have hmark : ∀ k, k < s.pieces.length →
        ((s.mark_piece k .Requested).pieces.getD k ⟨0, false, .NotRequested, 0⟩).status =
          .Requested := by
      intro k hk
      simp only [PiecePicker.mark_piece, dif_pos hk]
      simp [List.getD_eq_getElem?_getD, List.getElem?_set_self hk]
    cases hst : s.pick_strategy with
    | RandomFirst =>
      by_cases hc : (s.candidates bf).length = 0
      · have hcnil : s.candidates bf = [] := List.length_eq_zero.mp hc
        simp only [PiecePicker.pick_piece, hbf, hst, dif_pos hc]
        simp [hcnil]
      · simp only [PiecePicker.pick_piece, hbf, hst, dif_neg hc]
        have hmem := List.get_mem (s.candidates bf)
          (r % (s.candidates bf).length) (Nat.mod_lt r (Nat.pos_of_ne_zero hc))
        refine ⟨?_, ?_, ?_⟩
        · simp
          intro hnil
          rw [hnil] at hc
          simp at hc
        · simp
        · intro blocks hblocks
          simp only [Option.some.injEq] at hblocks
          refine ⟨_, hmem, hblocks.symm, rfl, hmark _ (candidates_lt s bf hmem), ?_⟩
          intro hcontra
          exact Strategy.noConfusion hcontra
    | RarestFirst =>
      simp only [PiecePicker.pick_piece, hbf, hst]
      cases hmin : minByKey s.availabilityAt (s.candidates bf) with
      | none =>
        rw [minByKey_eq_none_iff] at hmin
        simp [hmin]
      | some k =>
        obtain ⟨hkmem, hkmin, hktie⟩ := minByKey_spec _ _ _ hmin
        refine ⟨?_, ?_, ?_⟩
        · constructor
          · intro h
            simp at h
          · intro hnil
            rw [hnil] at hkmem
            cases hkmem
        · intro h
          simp at h
        · intro blocks hblocks
          simp only [Option.some.injEq] at hblocks
          exact ⟨k, hkmem, hblocks.symm, rfl, hmark _ (candidates_lt s bf hkmem),
            fun _ => ⟨hkmin, hktie (candidates_sorted s bf)⟩⟩

/-- Witness for C8: on the concrete rarest-first picker, `pick_piece`
grants piece 1 (the smallest index of minimal availability among the
candidates of peer 1), marks it `Requested`, and returns its block list. -/
theorem pick_piece_spec_witness :
    mapLookup c8_state.peer_bitifield 1 = some c8_bf ∧
      (c8_state.pick_piece 0 1).1 = some (c8_state.get_blocks 1) ∧
      ∃ k, k ∈ c8_state.candidates c8_bf ∧
        c8_state.get_blocks 1 = c8_state.get_blocks k ∧
        (c8_state.pick_piece 0 1).2 = c8_state.mark_piece k .Requested ∧
        ((c8_state.pick_piece 0 1).2.pieces.getD k
          ⟨0, false, .NotRequested, 0⟩).status = .Requested ∧
        (c8_state.pick_strategy = .RarestFirst →
          (∀ j ∈ c8_state.candidates c8_bf,
            c8_state.availabilityAt k ≤ c8_state.availabilityAt j) ∧
          (∀ j ∈ c8_state.candidates c8_bf,
            c8_state.availabilityAt j = c8_state.availabilityAt k → k ≤ j)) :=
  ⟨by decide, by decide,
    ((pick_piece_spec c8_state 0 1).2 c8_bf (by decide)).2.2 _ (by decide)⟩

/-! Bitfield mutation and availability-tracking lemmas (for C2). -/

theorem div8_lt {idx total : Nat} (h : idx < total) : idx / 8 < (total + 7) / 8 := by
  rw [Nat.div_lt_iff_lt_mul (by norm_num)]
  have h1 := Nat.div_add_mod (total + 7) 8
  have h2 : (total + 7) % 8 < 8 := Nat.mod_lt _ (by norm_num)
  omega

theorem BitField.set_piece_total (bf : BitField) (idx : Nat) :
    (bf.set_piece idx).total_pieces = bf.total_pieces := by
  unfold BitField.set_piece
  split_ifs <;> rfl

theorem BitField.set_piece_wf {bf : BitField} (idx : Nat) (hwf : bf.WF) :
    (bf.set_piece idx).WF := by
  unfold BitField.WF at hwf ⊢
  rw [BitField.set_piece_total]
  unfold BitField.set_piece
  split_ifs with h
  · exact hwf
  · simpa using hwf

theorem BitField.has_piece_set_piece_self {bf : BitField} {idx : Nat}
    (hwf : bf.WF) (hlt : idx < bf.total_pieces) :
    (bf.set_piece idx).has_piece idx = true := by
  have hguard : ¬ idx ≥ bf.total_pieces := by omega
  have hdiv : idx / 8 < bf.inner.length := by
    rw [hwf]
    exact div8_lt hlt
  unfold BitField.set_piece
  rw [if_neg hguard]
  unfold BitField.has_piece
  simp only
  rw [if_neg hguard]
  rw [List.getD_eq_getElem?_getD, List.getElem?_set_self hdiv]
  simp [Nat.shiftLeft_eq, Nat.testBit_or, Nat.testBit_two_pow_self]

theorem BitField.has_piece_set_piece_other (bf : BitField) (idx j : Nat)
    (hne : j ≠ idx) : (bf.set_piece idx).has_piece j = bf.has_piece j := by
  unfold BitField.set_piece
  split_ifs with hge
  · rfl
  · unfold BitField.has_piece
    simp only
    by_cases hj : j ≥ bf.total_pieces
    · rw [if_pos hj, if_pos hj]
    · rw [if_neg hj, if_neg hj]
      by_cases hbyte : idx / 8 = j / 8
      · by_cases hlen : idx / 8 < bf.inner.length
        · rw [List.getD_eq_getElem?_getD, List.getElem?_set, if_pos hbyte, if_pos hlen]
          have hmod : idx % 8 ≠ j % 8 := by
            have h1 := Nat.div_add_mod idx 8
            have h2 := Nat.div_add_mod j 8
            omega
          have hbit : 7 - idx % 8 ≠ 7 - j % 8 := by
            have h1 : idx % 8 < 8 := Nat.mod_lt _ (by norm_num)
            have h2 : j % 8 < 8 := Nat.mod_lt _ (by norm_num)
            omega
          rw [← hbyte, List.getD_eq_getElem?_getD]
          simp only [Option.getD_some]
          rw [Nat.shiftLeft_eq, one_mul, Nat.testBit_or, Nat.testBit_two_pow]
          simp [hbit]
        · rw [List.getD_eq_getElem?_getD, List.getElem?_set, if_pos hbyte, if_neg hlen]
          rw [← hbyte, List.getD_eq_getElem?_getD,
            List.getElem?_eq_none (le_of_not_lt hlen)]
      · rw [List.getD_eq_getElem?_getD, List.getElem?_set, if_neg hbyte,
          ← List.getD_eq_getElem?_getD]

theorem bumpAvail_length (bf : BitField) (i0 : Nat) (l : List PieceIndexData) :
    (bumpAvail bf i0 l).length = l.length := by
  induction l generalizing i0 with
  | nil => rfl
  | cons pc t ih => simp [bumpAvail, ih]

theorem dropAvail_length (bf : BitField) (i0 : Nat) (l : List PieceIndexData) :
    (dropAvail bf i0 l).length = l.length := by
  induction l generalizing i0 with
  | nil => rfl
  | cons pc t ih => simp [dropAvail, ih]

theorem incrAvailAt_length (n : Nat) (l : List PieceIndexData) :
    (incrAvailAt n l).length = l.length := by
  induction l generalizing n with
  | nil => cases n <;> rfl
  | cons pc t ih =>
    cases n with
    | zero => rfl
    | succ m => simp [incrAvailAt, ih]

theorem bumpAvail_getElem? (bf : BitField) (i0 : Nat) (l : List PieceIndexData) (i : Nat) :
    (bumpAvail bf i0 l)[i]? = (l[i]?).map (fun pc =>
      if bf.has_piece (i0 + i) then
        { pc with availability := pc.availability + 1 } else pc) := by
  induction l generalizing i0 i with
  | nil => simp [bumpAvail]
  | cons pc t ih =>
    cases i with
    | zero => simp [bumpAvail]
    | succ n =>
      have harith : i0 + 1 + n = i0 + (n + 1) := by omega
      simp only [bumpAvail, List.getElem?_cons_succ, ih (i0 + 1) n, harith]

theorem dropAvail_getElem? (bf : BitField) (i0 : Nat) (l : List PieceIndexData) (i : Nat) :
    (dropAvail bf i0 l)[i]? = (l[i]?).map (fun pc =>
      if bf.has_piece (i0 + i) ∧ pc.availability > 0 then
        { pc with availability := pc.availability - 1 } else pc) := by
  induction l generalizing i0 i with
  | nil => simp [dropAvail]
  | cons pc t ih =>
    cases i with
    | zero => simp [dropAvail]
    | succ n =>
      have harith : i0 + 1 + n = i0 + (n + 1) := by omega
      simp only [dropAvail, List.getElem?_cons_succ, ih (i0 + 1) n, harith]

theorem incrAvailAt_getElem? (n : Nat) (l : List PieceIndexData) (i : Nat) :
    (incrAvailAt n l)[i]? = if i = n then
      (l[i]?).map (fun pc => { pc with availability := pc.availability + 1 })
    else l[i]? := by
  induction l generalizing n i with
  | nil => simp [incrAvailAt]
  | cons pc t ih =>
    cases n with
    | zero =>
      cases i with
      | zero => simp [incrAvailAt]
      | succ m => simp [incrAvailAt]
    | succ m =>
      cases i with
      | zero => simp [incrAvailAt]
      | succ k =>
        simp only [incrAvailAt, List.getElem?_cons_succ, ih m k]
        by_cases hk : k = m
        · simp [hk]
        · simp [hk, fun h => hk (Nat.succ_injective h)]

theorem availabilityAt_eq (s : PiecePicker) (i : Nat) :
    s.availabilityAt i =
      ((s.pieces[i]?).getD ⟨0, false, .NotRequested, 0⟩).availability := by
  unfold PiecePicker.availabilityAt
  rw [List.getD_eq_getElem?_getD]

theorem pickerInv_register {s : PiecePicker} {p : Addr} {bf : BitField}
    (hinv : PickerInv s) (habs : mapLookup s.peer_bitifield p = none)
    (hbt : bf.total_pieces = s.total_pieces) (hwf : bf.WF) :
    PickerInv (s.register_peer p bf) := by
  obtain ⟨hnd, hents, hlen, havail⟩ := hinv
  have hmap : mapInsert s.peer_bitifield p bf = s.peer_bitifield ++ [(p, bf)] :=
    mapInsert_absent bf habs
  refine ⟨?_, ?_, ?_, ?_⟩
  · show ((mapInsert s.peer_bitifield p bf).map Prod.fst).Nodup
    rw [hmap, List.map_append, List.nodup_append]
    refine ⟨hnd, by simp, ?_⟩
    intro a ha hb
    simp at hb
    subst hb
    exact (mapLookup_eq_none_iff _ _).mp habs ha
  · intro e he
    replace he : e ∈ mapInsert s.peer_bitifield p bf := he
    rw [hmap] at he
    rcases List.mem_append.mp he with he | he
    · exact hents e he
    · simp at he
      subst he
      exact ⟨hbt, hwf⟩
  · show (bumpAvail bf 0 s.pieces).length = s.total_pieces
    rw [bumpAvail_length]
    exact hlen
  · intro i
    have h0 := havail i
    rw [availabilityAt_eq] at h0
    show ((bumpAvail bf 0 s.pieces).getD i ⟨0, false, .NotRequested, 0⟩).availability =
      ((mapInsert s.peer_bitifield p bf).filter (fun e => e.2.has_piece i)).length
    rw [List.getD_eq_getElem?_getD, bumpAvail_getElem?, hmap, List.filter_append]
    rw [List.length_append]
    unfold PiecePicker.countHas at h0
    cases hi : s.pieces[i]? with
    | none =>
      have hge : s.pieces.length ≤ i := by
        by_contra hlt
        rw [List.getElem?_eq_getElem (by omega)] at hi
        cases hi
      have hhasf : bf.has_piece i = false := by
        unfold BitField.has_piece
        rw [if_pos (by omega)]
      rw [hi] at h0
      simp only [Option.getD_none] at h0
      simp [hhasf, ← h0]
    | some pc =>
      rw [hi] at h0
      simp only [Option.getD_some] at h0
      by_cases hhas : bf.has_piece i
      · simp [hhas, h0]
      · simp [hhas, h0]

theorem pickerInv_update {s s' : PiecePicker} {p : Addr} {i : Nat}
    (hinv : PickerInv s) (hupd : s.update_peer p i = some s') :
    PickerInv s' := by
  obtain ⟨hnd, hents, hlen, havail⟩ := hinv
  unfold PiecePicker.update_peer at hupd
  cases hbf : mapLookup s.peer_bitifield p with
  | none =>
    rw [hbf] at hupd
    simp at hupd
    subst hupd
    exact ⟨hnd, hents, hlen, havail⟩
  | some bf =>
    rw [hbf] at hupd
    dsimp only at hupd
    by_cases hhas : bf.has_piece i
    · rw [if_pos hhas] at hupd
      simp at hupd
      subst hupd
      exact ⟨hnd, hents, hlen, havail⟩
    · rw [if_neg hhas] at hupd
      by_cases hilt : i < s.pieces.length
      · rw [if_pos hilt] at hupd
        simp at hupd
        subst hupd
        obtain ⟨hbt, hwf⟩ := hents _ (mapLookup_mem hbf)
        have hitot : i < bf.total_pieces := by rw [hbt, ← hlen]; exact hilt
        have hself := BitField.has_piece_set_piece_self hwf hitot
        refine ⟨?_, ?_, ?_, ?_⟩
        · show ((mapInsert s.peer_bitifield p (bf.set_piece i)).map Prod.fst).Nodup
          rw [keys_mapInsert_present _ hbf]
          exact hnd
        · intro e he
          rcases mem_mapInsert he with he | he
          · subst he
            exact ⟨by rw [BitField.set_piece_total]; exact hbt,
              BitField.set_piece_wf _ hwf⟩
          · exact hents e he
        · show (incrAvailAt i s.pieces).length = s.total_pieces
          rw [incrAvailAt_length]
          exact hlen
        · intro j
          have h0 := havail j
          rw [availabilityAt_eq] at h0
          unfold PiecePicker.countHas at h0
          show ((incrAvailAt i s.pieces).getD j ⟨0, false, .NotRequested, 0⟩).availability =
            ((mapInsert s.peer_bitifield p (bf.set_piece i)).filter
              (fun e => e.2.has_piece j)).length
          rw [List.getD_eq_getElem?_getD, incrAvailAt_getElem?]
          have hcnt := filterLen_mapInsert_present (fun e => e.2.has_piece j)
            (bf.set_piece i) hbf hnd
          dsimp only at hcnt hself
          by_cases hji : j = i
          · subst hji
            rw [if_pos rfl]
            rw [Bool.not_eq_true] at hhas
            rw [hhas, hself] at hcnt
            simp only [Bool.false_eq_true, if_false, if_true, add_zero] at hcnt
            cases hj : s.pieces[j]? with
            | none =>
              exfalso
              rw [List.getElem?_eq_none_iff] at hj
              omega
            | some pc =>
              rw [hj] at h0
              simp only [Option.getD_some] at h0
              simp only [Option.map_some', Option.getD_some]
              omega
          · rw [if_neg hji]
            have hother := BitField.has_piece_set_piece_other bf i j hji
            rw [hother] at hcnt
            have hcancel := Nat.add_right_cancel hcnt
            rw [h0]
            exact hcancel.symm
      · rw [if_neg hilt] at hupd
        cases hupd

theorem pickerInv_unregister {s : PiecePicker} (p : Addr) (hinv : PickerInv s) :
    PickerInv (s.unregister_peer p) := by
  obtain ⟨hnd, hents, hlen, havail⟩ := hinv
  unfold PiecePicker.unregister_peer
  cases hbf : mapLookup s.peer_bitifield p with
  | none => exact ⟨hnd, hents, hlen, havail⟩
  | some bf =>
    refine ⟨?_, ?_, ?_, ?_⟩
    · exact List.Nodup.sublist (keys_mapRemove_sublist _ _) hnd
    · intro e he
      exact hents e (mem_mapRemove he)
    · show (dropAvail bf 0 s.pieces).length = s.total_pieces
      rw [dropAvail_length]
      exact hlen
    · intro i
      have h0 := havail i
      rw [availabilityAt_eq] at h0
      unfold PiecePicker.countHas at h0
      show ((dropAvail bf 0 s.pieces).getD i ⟨0, false, .NotRequested, 0⟩).availability =
        ((mapRemove s.peer_bitifield p).filter (fun e => e.2.has_piece i)).length
      rw [List.getD_eq_getElem?_getD, dropAvail_getElem?]
      simp only [Nat.zero_add]
      have hcnt := filterLen_mapRemove (fun e => e.2.has_piece i) hbf hnd
      dsimp only at hcnt
      cases hi : s.pieces[i]? with
      | none =>
        rw [hi] at h0
        simp only [Option.getD_none] at h0
        simp only [Option.map_none', Option.getD_none]
        by_cases hhas : bf.has_piece i
        · rw [if_pos hhas] at hcnt
          omega
        · rw [Bool.not_eq_true] at hhas
          rw [hhas] at hcnt
          simp only [Bool.false_eq_true, if_false, add_zero] at hcnt
          omega
      | some pc =>
        rw [hi] at h0
        simp only [Option.getD_some] at h0
        simp only [Option.map_some', Option.getD_some]
        by_cases hhas : bf.has_piece i
        · rw [if_pos hhas] at hcnt
          have hpos : pc.availability > 0 := by omega
          rw [if_pos ⟨hhas, hpos⟩]
          dsimp only
          omega
        · rw [if_neg (fun hcond => hhas hcond.1)]
          rw [Bool.not_eq_true] at hhas
          rw [hhas] at hcnt
          simp only [Bool.false_eq_true, if_false, add_zero] at hcnt
          omega

theorem pickerInv_execOps :
    ∀ (ops : List PickerOp) (s s' : PiecePicker), PickerInv s →
      s.validOps ops = true → s.execOps ops = some s' → PickerInv s' := by
  intro ops
  induction ops with
  | nil =>
    intro s s' hinv _ hexec
    simp [PiecePicker.execOps] at hexec
    subst hexec
    exact hinv
  | cons op t ih =>
    intro s s' hinv hvalid hexec
    cases op with
    | register p bf =>
      simp only [PiecePicker.validOps, Bool.decide_and, Bool.and_eq_true,
        decide_eq_true_eq] at hvalid
      obtain ⟨habs, hbt, hwf, hrest⟩ := hvalid
      simp only [PiecePicker.execOps, PiecePicker.execOp] at hexec
      exact ih _ s' (pickerInv_register hinv (by simpa using habs) hbt hwf)
        hrest hexec
    | update p i =>
      simp only [PiecePicker.execOps, PiecePicker.execOp] at hexec
      cases hupd : s.update_peer p i with
      | none => rw [hupd] at hexec; cases hexec
      | some s1 =>
        rw [hupd] at hexec
        have hvalid' : s1.validOps t = true := by
          simp only [PiecePicker.validOps, PiecePicker.execOp] at hvalid
          rw [hupd] at hvalid
          exact hvalid
        exact ih s1 s' (pickerInv_update hinv hupd) hvalid' hexec
    | unregister p =>
      simp only [PiecePicker.execOps, PiecePicker.execOp] at hexec
      have hvalid' : (s.unregister_peer p).validOps t = true := by
        simp only [PiecePicker.validOps, PiecePicker.execOp] at hvalid
        exact hvalid
      exact ih _ s' (pickerInv_unregister p hinv) hvalid' hexec

theorem pickerInv_init (sizes : List Nat) : PickerInv (PiecePicker.init sizes) := by
  refine ⟨by simp [PiecePicker.init], by simp [PiecePicker.init], by simp [PiecePicker.init], ?_⟩
  intro i
  unfold PiecePicker.init PiecePicker.availabilityAt PiecePicker.countHas
  simp only [List.filter_nil, List.length_nil]
  rw [List.getD_eq_getElem?_getD, List.getElem?_map]
  cases sizes[i]? <;> rfl

/-- Claim C2 (amended): starting from a fresh picker, provided register_peer
is only ever invoked for peers that are not currently registered and with
bitfields well-formed for this torrent, then after every panic-free
sequence of register/update/unregister operations every availability
counter equals the number of currently-registered peers whose stored
bitfield has that bit (non-negativity being inherent in `Nat`); moreover
unregistering an unknown peer is a no-op, so the second of two
unregistrations of the same peer leaves availability unchanged. -/
theorem piecePicker_availability_invariant (sizes : List Nat) (ops : List PickerOp)
    (s : PiecePicker) (hexec : (PiecePicker.init sizes).execOps ops = some s)
    (hvalid : (PiecePicker.init sizes).validOps ops = true) :
    (∀ i, s.availabilityAt i = s.countHas i) ∧
      (∀ p, mapLookup s.peer_bitifield p = none → s.unregister_peer p = s) := by
  have hinv := pickerInv_execOps ops _ s (pickerInv_init sizes) hvalid hexec
  refine ⟨hinv.2.2.2, ?_⟩
  intro p hp
  unfold PiecePicker.unregister_peer
  rw [hp]

/-- Witness for the amended C2 theorem: a concrete 3-piece trace with two
registrations, a Have update and a double unregister satisfies the
discipline, and the final availability counters match the registered-peer
counts. -/
theorem piecePicker_availability_invariant_witness :
    (∀ i, (((PiecePicker.init [8, 8, 8]).execOps c2ops).getD
        (PiecePicker.init [])).availabilityAt i =
      (((PiecePicker.init [8, 8, 8]).execOps c2ops).getD
        (PiecePicker.init [])).countHas i) ∧
      (∀ p, mapLookup (((PiecePicker.init [8, 8, 8]).execOps c2ops).getD
          (PiecePicker.init [])).peer_bitifield p = none →
        (((PiecePicker.init [8, 8, 8]).execOps c2ops).getD
          (PiecePicker.init [])).unregister_peer p =
          ((PiecePicker.init [8, 8, 8]).execOps c2ops).getD (PiecePicker.init [])) :=
  piecePicker_availability_invariant [8, 8, 8] c2ops _ rfl (by decide)

/-! Peer-session pipeline lemmas (for C4). -/

theorem mem_hashsetInsert (a b : BlockInfo) (l : List BlockInfo) :
    b ∈ hashsetInsert a l ↔ b = a ∨ b ∈ l := by
  unfold hashsetInsert
  split_ifs with h
  · constructor
    · exact Or.inr
    · rintro (rfl | hb)
      · exact h
      · exact hb
  · simp [or_comm]

theorem hashsetInsert_nodup (a : BlockInfo) (l : List BlockInfo) (h : l.Nodup) :
    (hashsetInsert a l).Nodup := by
  unfold hashsetInsert
  split_ifs with hmem
  · exact h
  · rw [List.nodup_append]
    exact ⟨h, List.nodup_singleton a, by intro x hx hx'; simp at hx'; subst hx'; exact hmem hx⟩

theorem hashsetInsert_length (a : BlockInfo) (l : List BlockInfo) :
    (hashsetInsert a l).length ≤ l.length + 1 := by
  unfold hashsetInsert
  split_ifs <;> simp

theorem requestLoopRev_inv (blocks : List BlockInfo) :
    ∀ (outgoing sent matched : List BlockInfo),
      outgoing.length < THRESHOLD → outgoing.Nodup →
      (∀ b, matched.count b + (if b ∈ outgoing then 1 else 0) ≤ sent.count b) →
      ((requestLoopRev blocks outgoing sent).2.1.length ≤ THRESHOLD ∧
        (requestLoopRev blocks outgoing sent).2.1.Nodup ∧
        ∀ b, matched.count b + (if b ∈ (requestLoopRev blocks outgoing sent).2.1
          then 1 else 0) ≤ (requestLoopRev blocks outgoing sent).2.2.count b) := by
  induction blocks with
  | nil =>
    intro outgoing sent matched hlen hnd hcnt
    exact ⟨le_of_lt hlen, hnd, hcnt⟩
  | cons b0 rest ih =>
    intro outgoing sent matched hlen hnd hcnt
    have hlen' : (hashsetInsert b0 outgoing).length ≤ THRESHOLD := by
      have := hashsetInsert_length b0 outgoing
      omega
    have hnd' : (hashsetInsert b0 outgoing).Nodup := hashsetInsert_nodup b0 outgoing hnd
    have hcnt' : ∀ b, matched.count b +
        (if b ∈ hashsetInsert b0 outgoing then 1 else 0) ≤ (sent ++ [b0]).count b := by
      intro b
      have hbase := hcnt b
      rw [List.count_append, List.count_singleton]
      by_cases hb : b = b0
      · subst hb
        rw [if_pos ((mem_hashsetInsert b b _).mpr (Or.inl rfl))]
        simp only [beq_self_eq_true, if_true]
        by_cases hmem : b ∈ outgoing
        · rw [if_pos hmem] at hbase
          omega
        · rw [if_neg hmem] at hbase
          omega
      · have hmemiff : b ∈ hashsetInsert b0 outgoing ↔ b ∈ outgoing := by
          rw [mem_hashsetInsert]
          simp [hb]
        have hne : ¬ (b0 == b) = true := by
          intro hc
          exact hb (beq_iff_eq.mp hc).symm
        rw [if_neg hne]
        simp only [hmemiff]
        omega
    rw [requestLoopRev]
    split_ifs with hth
    · exact ⟨hlen', hnd', hcnt'⟩
    · exact ih _ _ matched (by omega) hnd' hcnt'

theorem try_request_pipelineInv (s : PeerInfo) (o : Option (List BlockInfo))
    (h : pipelineInv s) : pipelineInv (s.try_request o) := by
  obtain ⟨hlen, hnd, hcnt⟩ := h
  by_cases hrun : (!s.remote_choking) = true ∧ s.am_interested = true
  case neg =>
    unfold PeerInfo.try_request
    rw [if_neg hrun]
    exact ⟨hlen, hnd, hcnt⟩
  by_cases hth : THRESHOLD ≤ s.outgoing_requests.length
  case pos =>
    unfold PeerInfo.try_request
    rw [if_pos hrun, if_pos hth]
    exact ⟨hlen, hnd, hcnt⟩
  have hlt : s.outgoing_requests.length < THRESHOLD := by omega
  cases hbtr : s.blocks_to_request with
  | none =>
    cases o with
    | none =>
      unfold PeerInfo.try_request PeerInfo.get_tasks
      rw [if_pos hrun, if_neg hth]
      simp only [hbtr, Option.isNone_none, if_true]
      exact ⟨hlen, hnd, hcnt⟩
    | some blocks =>
      unfold PeerInfo.try_request PeerInfo.get_tasks
      rw [if_pos hrun, if_neg hth]
      simp only [hbtr, Option.isNone_none, if_true]
      unfold pipelineInv requestLoop
      dsimp only
      exact requestLoopRev_inv blocks.reverse _ _ _ hlt hnd hcnt
  | some blocks =>
    unfold PeerInfo.try_request
    rw [if_pos hrun, if_neg hth]
    simp only [hbtr, Option.isNone_some, Bool.false_eq_true, if_false]
    unfold pipelineInv requestLoop
    dsimp only
    exact requestLoopRev_inv blocks.reverse _ _ _ hlt hnd hcnt

theorem handle_msg_pipelineInv {s s' : PeerInfo} {ev : PeerEvent}
    (h : pipelineInv s) (hm : s.handle_msg ev = some s') : pipelineInv s' := by
  cases ev with
  | keepAlive =>
    simp only [PeerInfo.handle_msg, Option.some.injEq] at hm
    subst hm
    exact h
  | bitfieldMsg bytes verdict taskResp =>
    unfold PeerInfo.handle_msg at hm
    dsimp only at hm
    cases htf : BitField.tryFrom bytes s.total_pieces with
    | error e =>
      rw [htf] at hm
      cases hm
    | ok bf =>
      rw [htf] at hm
      dsimp only at hm
      by_cases hv : verdict = true
      · rw [if_pos hv, Option.some.injEq] at hm
        subst hm
        exact try_request_pipelineInv _ _ ⟨h.1, h.2.1, h.2.2⟩
      · rw [if_neg hv, Option.some.injEq] at hm
        subst hm
        exact h
  | choke =>
    simp only [PeerInfo.handle_msg, Option.some.injEq] at hm
    subst hm
    exact ⟨h.1, h.2.1, h.2.2⟩
  | unchoke taskResp =>
    simp only [PeerInfo.handle_msg, Option.some.injEq] at hm
    subst hm
    exact try_request_pipelineInv _ _ ⟨h.1, h.2.1, h.2.2⟩
  | interestedMsg => cases hm
  | notInterestedMsg => cases hm
  | haveMsg i verdict taskResp =>
    unfold PeerInfo.handle_msg at hm
    dsimp only at hm
    by_cases hint : s.am_interested = true
    · rw [if_pos hint, Option.some.injEq] at hm
      subst hm
      exact h
    · rw [if_neg hint] at hm
      by_cases hv : verdict = true
      · rw [if_pos hv, Option.some.injEq] at hm
        subst hm
        exact try_request_pipelineInv _ _ ⟨h.1, h.2.1, h.2.2⟩
      · rw [if_neg hv, Option.some.injEq] at hm
        subst hm
        exact h
  | requestMsg =>
    simp only [PeerInfo.handle_msg, Option.some.injEq] at hm
    subst hm
    exact h
  | pieceMsg block taskResp =>
    simp only [PeerInfo.handle_msg] at hm
    by_cases hmem : (⟨block.index, block.begin_, block.data.length⟩ : BlockInfo) ∈
        s.outgoing_requests
    · rw [if_pos hmem, Option.some.injEq] at hm
      subst hm
      apply try_request_pipelineInv
      obtain ⟨hlen, hnd, hcnt⟩ := h
      unfold pipelineInv
      dsimp only
      refine ⟨?_, ?_, ?_⟩
      · rw [List.length_erase, if_pos hmem]
        omega
      · exact hnd.erase _
      · intro b
        rw [List.count_append, List.count_singleton]
        by_cases hb : b = (⟨block.index, block.begin_, block.data.length⟩ : BlockInfo)
        · subst hb
          rw [if_neg (List.Nodup.not_mem_erase hnd)]
          have hbase := hcnt (⟨block.index, block.begin_, block.data.length⟩ : BlockInfo)
          rw [if_pos hmem] at hbase
          simp only [beq_self_eq_true, if_true]
          omega
        · have hne' : ¬ ((⟨block.index, block.begin_, block.data.length⟩ : BlockInfo) == b)
              = true := fun hc => hb (beq_iff_eq.mp hc).symm
          rw [if_neg hne']
          have hmemiff : b ∈ s.outgoing_requests.erase
              (⟨block.index, block.begin_, block.data.length⟩ : BlockInfo) ↔
                b ∈ s.outgoing_requests := List.mem_erase_of_ne hb
          simp only [hmemiff]
          have hbase := hcnt b
          omega
    · rw [if_neg hmem, Option.some.injEq] at hm
      subst hm
      exact h
  | cancelMsg =>
    simp only [PeerInfo.handle_msg, Option.some.injEq] at hm
    subst hm
    exact h

theorem execEvents_pipelineInv :
    ∀ (evs : List PeerEvent) (s s' : PeerInfo), pipelineInv s →
      s.execEvents evs = some s' → pipelineInv s' := by
  intro evs
  induction evs with
  | nil =>
    intro s s' h hexec
    simp only [PeerInfo.execEvents, Option.some.injEq] at hexec
    subst hexec
    exact h
  | cons ev t ih =>
    intro s s' h hexec
    simp only [PeerInfo.execEvents] at hexec
    cases hm : s.handle_msg ev with
    | none => rw [hm] at hexec; cases hexec
    | some s1 =>
      rw [hm] at hexec
      exact ih s1 s' (handle_msg_pipelineInv h hm) hexec

theorem pipelineInv_new (n : Nat) : pipelineInv (PeerInfo.new n) := by
  refine ⟨by simp [PeerInfo.new], by simp [PeerInfo.new], ?_⟩
  intro b
  simp [PeerInfo.new]

/-- Claim C4: after every sequence of handled messages that keeps the
session alive, the set of outstanding outgoing REQUESTs has at most
`THRESHOLD = 5` elements, and every element is a `BlockInfo` for which a
REQUEST was previously sent (it occurs in the send log) and whose matching
PIECE has not yet been received (matched PIECE receipts for it are
strictly fewer than the REQUESTs sent for it). -/
theorem peer_outstanding_requests_invariant (n : Nat) (events : List PeerEvent)
    (s : PeerInfo) (h : (PeerInfo.new n).execEvents events = some s) :
    s.outgoing_requests.length ≤ THRESHOLD ∧
      ∀ b ∈ s.outgoing_requests, b ∈ s.sent_requests ∧
        s.matched_pieces.count b < s.sent_requests.count b := by
  have hinv := execEvents_pipelineInv events _ s (pipelineInv_new n) h
  refine ⟨hinv.1, ?_⟩
  intro b hb
  have hc := hinv.2.2 b
  rw [if_pos hb] at hc
  refine ⟨List.count_pos_iff.mp (by omega), by omega⟩

/-- Witness for C4: the final state of the concrete `c4_events` session
(interested, granted seven two-byte blocks, five REQUESTs pipelined, one
PIECE received, pipeline topped back up) satisfies the outstanding-set bound and
the sent/received accounting. -/
theorem peer_outstanding_requests_invariant_witness :
    c4_final.outgoing_requests.length ≤ THRESHOLD ∧
      ∀ b ∈ c4_final.outgoing_requests, b ∈ c4_final.sent_requests ∧
        c4_final.matched_pieces.count b < c4_final.sent_requests.count b :=
  peer_outstanding_requests_invariant 4 c4_events c4_final rfl

/-! Rounding lemmas for the binary64 model. -/

theorem two_zpow_pos (z : ℤ) : (0 : ℚ) < (2 : ℚ) ^ z :=
  zpow_pos (by norm_num) z

theorem two_zpow_mul (a b : ℤ) : (2 : ℚ) ^ a * (2 : ℚ) ^ b = (2 : ℚ) ^ (a + b) :=
  (zpow_add₀ (by norm_num) a b).symm

theorem roundScaled_intCast (z : ℤ) : roundScaled (z : ℚ) = z := by
  unfold roundScaled
  rw [Int.floor_intCast]
  simp

theorem abs_sub_roundScaled (s : ℚ) : |s - (roundScaled s : ℚ)| ≤ 1 / 2 := by
  have h0 : (⌊s⌋ : ℚ) ≤ s := Int.floor_le s
  have h1 : s < ⌊s⌋ + 1 := Int.lt_floor_add_one s
  unfold roundScaled
  split_ifs with hf hg he
  · rw [abs_of_nonneg (by linarith)]; linarith
  · rw [abs_of_nonpos (by push_cast; linarith)]; push_cast; linarith
  · rw [abs_of_nonneg (by linarith)]; linarith
  · rw [abs_of_nonpos (by push_cast; linarith)]; push_cast; linarith

theorem roundScaled_le (s : ℚ) (K : ℤ) (h : s ≤ K) : roundScaled s ≤ K := by
  have hm : ⌊s⌋ ≤ K := by
    have := Int.floor_le_floor h
    rwa [Int.floor_intCast] at this
  have hstrict : ¬ s - (⌊s⌋ : ℚ) < 1 / 2 → ⌊s⌋ < K := by
    intro hf
    rcases lt_or_eq_of_le hm with h' | h'
    · exact h'
    · exfalso
      have hc : (⌊s⌋ : ℚ) = (K : ℚ) := by exact_mod_cast h'
      have : s - (⌊s⌋ : ℚ) ≤ 0 := by rw [hc]; linarith
      linarith
  unfold roundScaled
  split_ifs with hf hg he
  · exact hm
  · have := hstrict hf; omega
  · exact hm
  · have := hstrict hf; omega

theorem roundF64pos_eq_of_scaled_int (q : ℚ) (z : ℤ)
    (hz : q * (2 : ℚ) ^ ((52 : ℤ) - Int.log 2 q) = (z : ℚ)) : roundF64pos q = q := by
  unfold roundF64pos
  rw [hz, roundScaled_intCast, ← hz, mul_assoc, two_zpow_mul]
  norm_num

theorem abs_roundF64pos_sub (q : ℚ) :
    |q - roundF64pos q| ≤ (2 : ℚ) ^ (Int.log 2 q - 53) := by
  have key : q - roundF64pos q =
      (q * (2 : ℚ) ^ ((52 : ℤ) - Int.log 2 q) -
        (roundScaled (q * (2 : ℚ) ^ ((52 : ℤ) - Int.log 2 q)) : ℚ)) *
        (2 : ℚ) ^ (Int.log 2 q - 52) := by
    unfold roundF64pos
    rw [sub_mul, mul_assoc, two_zpow_mul]
    norm_num
  rw [key, abs_mul, abs_of_pos (two_zpow_pos _)]
  calc |q * (2 : ℚ) ^ ((52 : ℤ) - Int.log 2 q) -
        (roundScaled (q * (2 : ℚ) ^ ((52 : ℤ) - Int.log 2 q)) : ℚ)| *
        (2 : ℚ) ^ (Int.log 2 q - 52)
      ≤ (1 / 2) * (2 : ℚ) ^ (Int.log 2 q - 52) := by
        exact mul_le_mul_of_nonneg_right (abs_sub_roundScaled _) (two_zpow_pos _).le
    _ = (2 : ℚ) ^ (Int.log 2 q - 53) := by
        rw [show (1 / 2 : ℚ) = (2 : ℚ) ^ (-1 : ℤ) by norm_num, two_zpow_mul]
        ring_nf

theorem roundF64pos_le_intCast (q : ℚ) (k : ℤ) (hq : q ≤ (k : ℚ))
    (he : Int.log 2 q ≤ 52) : roundF64pos q ≤ (k : ℚ) := by
  set e := Int.log 2 q with hedef
  have hKcast : ((k * 2 ^ ((52 : ℤ) - e).toNat : ℤ) : ℚ) = (k : ℚ) * (2 : ℚ) ^ ((52 : ℤ) - e) := by
    push_cast
    rw [← zpow_natCast (2 : ℚ), Int.toNat_of_nonneg (by omega)]
  have hs : q * (2 : ℚ) ^ ((52 : ℤ) - e) ≤ (k : ℚ) * (2 : ℚ) ^ ((52 : ℤ) - e) :=
    mul_le_mul_of_nonneg_right hq (two_zpow_pos _).le
  have hr : roundScaled (q * (2 : ℚ) ^ ((52 : ℤ) - e)) ≤ k * 2 ^ ((52 : ℤ) - e).toNat :=
    roundScaled_le _ _ (by rw [hKcast]; exact hs)
  have hr' : ((roundScaled (q * (2 : ℚ) ^ ((52 : ℤ) - e)) : ℤ) : ℚ) ≤
      (k : ℚ) * (2 : ℚ) ^ ((52 : ℤ) - e) := by
    rw [← hKcast]; exact_mod_cast hr
  unfold roundF64pos
  rw [← hedef]
  calc (roundScaled (q * (2 : ℚ) ^ ((52 : ℤ) - e)) : ℚ) * (2 : ℚ) ^ (e - 52)
      ≤ (k : ℚ) * (2 : ℚ) ^ ((52 : ℤ) - e) * (2 : ℚ) ^ (e - 52) :=
        mul_le_mul_of_nonneg_right hr' (two_zpow_pos _).le
    _ = (k : ℚ) := by rw [mul_assoc, two_zpow_mul]; norm_num

theorem qpow_cast (n : ℕ) : ((2 ^ n : ℤ) : ℚ) = (2 : ℚ) ^ (n : ℤ) := by
  push_cast
  exact (zpow_natCast (2 : ℚ) n).symm

theorem qpow_nat_int (n : ℕ) : (2 : ℚ) ^ (n : ℕ) = (2 : ℚ) ^ ((n : ℤ)) :=
  (zpow_natCast (2 : ℚ) n).symm

theorem log2_two_pow_53 : Int.log 2 ((2 : ℚ) ^ (53 : ℕ)) = 53 := by
  have h : Int.log 2 (((2 : ℕ) : ℚ) ^ (53 : ℤ)) = 53 := Int.log_zpow (by norm_num) 53
  rw [show ((2 : ℕ) : ℚ) = (2 : ℚ) by norm_num] at h
  rw [qpow_nat_int]
  exact_mod_cast h

theorem f64ofNat_two_pow_53 : f64ofNat (2 ^ 53) = (2 : ℚ) ^ (53 : ℕ) := by
  unfold f64ofNat
  rw [if_neg (by positivity)]
  have hc : ((2 ^ 53 : ℕ) : ℚ) = (2 : ℚ) ^ (53 : ℕ) := by push_cast; ring
  rw [hc]
  apply roundF64pos_eq_of_scaled_int _ (2 ^ 52)
  rw [log2_two_pow_53, qpow_nat_int 53, two_zpow_mul, qpow_cast 52]
  norm_num

theorem log2_two_pow_53_add_one : Int.log 2 (((2 : ℚ) ^ (53 : ℕ)) + 1) = 53 := by
  have hc : ((2 : ℚ) ^ (53 : ℕ)) + 1 = ((2 ^ 53 + 1 : ℕ) : ℚ) := by push_cast; ring
  have hn : Nat.log 2 (2 ^ 53 + 1) = 53 :=
    Nat.log_eq_of_pow_le_of_lt_pow (by norm_num) (by norm_num)
  rw [hc, Int.log_natCast, hn]
  norm_num

theorem f64ofNat_two_pow_53_add_one : f64ofNat (2 ^ 53 + 1) = (2 : ℚ) ^ (53 : ℕ) := by
  unfold f64ofNat
  rw [if_neg (by positivity)]
  have hc : ((2 ^ 53 + 1 : ℕ) : ℚ) = ((2 : ℚ) ^ (53 : ℕ)) + 1 := by push_cast; ring
  rw [hc]
  unfold roundF64pos
  rw [log2_two_pow_53_add_one]
  have hs : (((2 : ℚ) ^ (53 : ℕ)) + 1) * (2 : ℚ) ^ ((52 : ℤ) - 53) =
      ((2 ^ 52 : ℤ) : ℚ) + 1 / 2 := by
    rw [add_mul, qpow_nat_int 53, two_zpow_mul, qpow_cast 52]
    norm_num
  rw [hs]
  have hfloor : ⌊((2 ^ 52 : ℤ) : ℚ) + 1 / 2⌋ = 2 ^ 52 := by
    rw [Int.floor_eq_iff]
    constructor
    · push_cast; linarith
    · push_cast; linarith
  have hround : roundScaled (((2 ^ 52 : ℤ) : ℚ) + 1 / 2) = 2 ^ 52 := by
    unfold roundScaled
    rw [hfloor]
    rw [if_neg (by norm_num), if_neg (by norm_num), if_pos (by norm_num)]
  rw [hround, qpow_cast 52, two_zpow_mul, qpow_nat_int 53]
  norm_num

theorem roundF64pos_one : roundF64pos 1 = 1 := by
  apply roundF64pos_eq_of_scaled_int _ (2 ^ 52)
  rw [Int.log_one_right, qpow_cast 52]
  norm_num

/-- Claim C6 (amended): for an insertion whose block lies within the piece
buffer, into a cache whose piece keys are duplicate-free (an invariant of
every cache the source constructs), `insert_block` returns a completed
`(index, bytes)` pair exactly when the cumulative downloaded count after
the call EQUALS the piece size — the source compares `downloaded ==
piece_length`, not `≥` — at which point the entry is removed from the
map; and every call for a piece no longer in the map (in particular one
already completed and removed) returns `None` with the cache unchanged. -/
theorem insert_block_completion :
    (∀ (c : PieceCache) (b : Block) (pm : PieceMetadata),
      (c.piece_map.map Prod.fst).Nodup →
      mapLookup c.piece_map b.index = some pm →
      b.begin_ + b.data.length ≤ pm.buffer.length →
      ∃ c' res, c.insert_block b = some (c', res) ∧
        (res.isSome ↔ pm.downloaded + b.data.length = pm.piece_length) ∧
        (pm.downloaded + b.data.length = pm.piece_length →
          res = some (b.index, spliceBytes pm.buffer b.begin_ b.data) ∧
          mapLookup c'.piece_map b.index = none)) ∧
    (∀ (c : PieceCache) (b : Block),
      mapLookup c.piece_map b.index = none → c.insert_block b = some (c, none)) := by
  constructor
  · intro c b pm hnd hlk hle
    simp only [PieceCache.insert_block, hlk]
    rw [if_pos hle]
    by_cases hc : pm.downloaded + b.data.length = pm.piece_length
    · rw [if_pos hc]
      refine ⟨_, _, rfl, by simp [hc], fun _ => ⟨rfl, ?_⟩⟩
      exact mapLookup_mapRemove_self hnd
    · rw [if_neg hc]
      exact ⟨_, _, rfl, by simp [hc], fun h => absurd h hc⟩
  · intro c b h
    simp only [PieceCache.insert_block, h]

/-- Witness for the amended C6 theorem: a concrete in-bounds insertion that
exactly fills a piece of size 2 completes it and removes it from the map,
and re-inserting into the removed piece returns `None`. -/
theorem insert_block_completion_witness :
    (∃ c' res, (PieceCache.init [2]).insert_block ⟨0, 0, [4, 5]⟩ = some (c', res) ∧
      (res.isSome ↔ (0 : Nat) + [4, 5].length = 2) ∧
      ((0 : Nat) + [4, 5].length = 2 →
        res = some (0, spliceBytes [0, 0] 0 [4, 5]) ∧
        mapLookup c'.piece_map 0 = none)) ∧
    PieceCache.insert_block ⟨[]⟩ ⟨0, 0, [9]⟩ = some (⟨[]⟩, none) := by
  constructor
  · exact insert_block_completion.1 (PieceCache.init [2]) ⟨0, 0, [4, 5]⟩ ⟨[0, 0], 2, 0⟩
      (by decide) (by decide) (by decide)
  · exact insert_block_completion.2 ⟨[]⟩ ⟨0, 0, [9]⟩ (by decide)

theorem int_log_le_52 {n : Nat} (h0 : 0 < n) (h : n < 2 ^ 53) :
    Int.log 2 ((n : ℚ)) ≤ 52 := by
  rw [Int.log_natCast]
  have := Nat.log_lt_of_lt_pow (by omega : n ≠ 0) h
  omega

theorem roundF64pos_nat_exact (n : Nat) (h0 : 0 < n) (h : n ≤ 2 ^ 53) :
    roundF64pos (n : ℚ) = (n : ℚ) := by
  have hlog : Int.log 2 ((n : ℚ)) = (Nat.log 2 n : ℤ) := Int.log_natCast 2 n
  by_cases h52 : Nat.log 2 n ≤ 52
  · apply roundF64pos_eq_of_scaled_int _ ((n : ℤ) * 2 ^ (52 - Nat.log 2 n))
    rw [hlog]
    push_cast
    rw [← zpow_natCast (2 : ℚ) (52 - Nat.log 2 n)]
    have hexp : (52 : ℤ) - (Nat.log 2 n : ℤ) = ((52 - Nat.log 2 n : ℕ) : ℤ) := by omega
    rw [hexp]
  · have hle53 : Nat.log 2 n ≤ 53 := by
      calc Nat.log 2 n ≤ Nat.log 2 (2 ^ 53) := Nat.log_mono_right h
        _ = 53 := Nat.log_pow (by norm_num) 53
    have hlog53 : Nat.log 2 n = 53 := by omega
    have hge : 2 ^ 53 ≤ n := by
      have hp := Nat.pow_log_le_self 2 (by omega : n ≠ 0)
      rw [hlog53] at hp
      exact hp
    have hn : n = 2 ^ 53 := le_antisymm h hge
    subst hn
    apply roundF64pos_eq_of_scaled_int _ (2 ^ 52)
    have hc : ((2 ^ 53 : ℕ) : ℚ) = (2 : ℚ) ^ (53 : ℕ) := by push_cast; ring
    rw [hc, log2_two_pow_53, qpow_nat_int 53, two_zpow_mul, qpow_cast 52]
    norm_num

theorem ceil_div_nat (L P : Nat) (hP : 0 < P) :
    ⌈(L : ℚ) / (P : ℚ)⌉ = (((L + P - 1) / P : ℕ) : ℤ) := by
  have hPQ : (0 : ℚ) < (P : ℚ) := by exact_mod_cast hP
  have hub : L + P - 1 < ((L + P - 1) / P + 1) * P :=
    (Nat.div_lt_iff_lt_mul hP).mp (Nat.lt_succ_self _)
  have hlb : (L + P - 1) / P * P ≤ L + P - 1 := Nat.div_mul_le_self _ _
  have hLle : L ≤ (L + P - 1) / P * P := by
    rw [Nat.succ_mul] at hub
    omega
  have hlt : (L + P - 1) / P * P < L + P := by omega
  have hcast1 : ((((L + P - 1) / P : ℕ) : ℤ) : ℚ) = (((L + P - 1) / P : ℕ) : ℚ) := by
    norm_cast
  rw [Int.ceil_eq_iff, hcast1]
  constructor
  · rw [lt_div_iff₀ hPQ, sub_mul, one_mul]
    have h1 : (((L + P - 1) / P * P : ℕ) : ℚ) < ((L : ℚ) + (P : ℚ)) := by
      exact_mod_cast hlt
    rw [Nat.cast_mul] at h1
    linarith
  · rw [div_le_iff₀ hPQ]
    have h2 : ((L : ℕ) : ℚ) ≤ (((L + P - 1) / P * P : ℕ) : ℚ) := by exact_mod_cast hLle
    rw [Nat.cast_mul] at h2
    exact h2

theorem ceil_roundF64pos (L P : Nat) (hL : 0 < L) (hP : 0 < P)
    (hL53 : L < 2 ^ 53) (hP53 : P < 2 ^ 53) :
    ⌈roundF64pos ((L : ℚ) / (P : ℚ))⌉ = ⌈(L : ℚ) / (P : ℚ)⌉ := by
  have hPQ : (0 : ℚ) < (P : ℚ) := by exact_mod_cast hP
  have hLQ : (0 : ℚ) < (L : ℚ) := by exact_mod_cast hL
  set q : ℚ := (L : ℚ) / (P : ℚ) with hqdef
  have hq0 : 0 < q := div_pos hLQ hPQ
  have hqP : q * (P : ℚ) = (L : ℚ) := div_mul_cancel₀ _ (ne_of_gt hPQ)
  by_cases hdvd : P ∣ L
  · have hq : q = ((L / P : ℕ) : ℚ) := by
      rw [hqdef, Nat.cast_div hdvd (ne_of_gt hPQ)]
    have hquot_pos : 0 < L / P := Nat.div_pos (Nat.le_of_dvd hL hdvd) hP
    have hquot_le : L / P ≤ 2 ^ 53 := le_of_lt (lt_of_le_of_lt (Nat.div_le_self _ _) hL53)
    rw [hq, roundF64pos_nat_exact _ hquot_pos hquot_le]
  · set k : ℤ := ⌈q⌉ with hkdef
    have hqlek : q ≤ (k : ℚ) := Int.le_ceil q
    have hk1 : (1 : ℤ) ≤ k := by
      have : (0 : ℚ) < (k : ℚ) := lt_of_lt_of_le hq0 hqlek
      exact_mod_cast this
    have hkleL : k ≤ (L : ℤ) := by
      rw [hkdef]
      rw [show ((L : ℤ)) = ⌈((L : ℕ) : ℚ)⌉ by rw [Int.ceil_natCast]]
      apply Int.ceil_le_ceil
      rw [hqdef, div_le_iff₀ hPQ]
      have hPge1 : (1 : ℚ) ≤ (P : ℚ) := by exact_mod_cast hP
      nlinarith
    have hqltk : q < (k : ℚ) := by
      rcases lt_or_eq_of_le hqlek with h | h
      · exact h
      · exfalso
        apply hdvd
        have hLk : (L : ℚ) = (k : ℚ) * (P : ℚ) := by rw [← hqP, h]
        have hLkZ : (L : ℤ) = k * (P : ℤ) := by exact_mod_cast hLk
        have hkn : k = (k.toNat : ℤ) := (Int.toNat_of_nonneg (by omega)).symm
        refine ⟨k.toNat, ?_⟩
        have : (L : ℤ) = ((P : ℤ)) * ((k.toNat : ℤ)) := by rw [hLkZ, ← hkn]; ring
        exact_mod_cast this
    have hgap : (k : ℚ) - 1 + 1 / (P : ℚ) ≤ q := by
      have hceil : ((k : ℚ) - 1) < q := by
        have h2 : (k - 1 : ℤ) < ⌈q⌉ := by rw [← hkdef]; omega
        have h3 := Int.lt_ceil.mp h2
        push_cast at h3
        linarith
      have hZ : ((k - 1) * (P : ℤ)) < (L : ℤ) := by
        have : ((k : ℚ) - 1) * (P : ℚ) < (L : ℚ) := by
          calc ((k : ℚ) - 1) * (P : ℚ) < q * (P : ℚ) := by
                exact mul_lt_mul_of_pos_right hceil hPQ
            _ = (L : ℚ) := hqP
        exact_mod_cast this
      have hZ1 : (k - 1) * (P : ℤ) + 1 ≤ (L : ℤ) := hZ
      have hQ1 : ((k : ℚ) - 1) * (P : ℚ) + 1 ≤ (L : ℚ) := by exact_mod_cast hZ1
      rw [hqdef, le_div_iff₀ hPQ, add_mul, div_mul_cancel₀ _ (ne_of_gt hPQ)]
      linarith
    have he52 : Int.log 2 q ≤ 52 := by
      calc Int.log 2 q ≤ Int.log 2 ((L : ℚ)) := Int.log_mono_right hq0 (by
            rw [hqdef]
            rw [div_le_iff₀ hPQ]
            have hPge1 : (1 : ℚ) ≤ (P : ℚ) := by exact_mod_cast hP
            nlinarith)
      _ ≤ 52 := int_log_le_52 hL hL53
    have hub : roundF64pos q ≤ (k : ℚ) := roundF64pos_le_intCast q k hqlek he52
    have hlb : (k : ℚ) - 1 < roundF64pos q := by
      by_contra hcon
      push_neg at hcon
      have hdiff : 1 / (P : ℚ) ≤ q - roundF64pos q := by linarith
      have habs := abs_roundF64pos_sub q
      have hdiff2 : q - roundF64pos q ≤ (2 : ℚ) ^ (Int.log 2 q - 53) :=
        le_trans (le_abs_self _) habs
      have hPbound : (2 : ℚ) ^ ((53 : ℤ) - Int.log 2 q) ≤ (P : ℚ) := by
        have h1 : 1 / (P : ℚ) ≤ (2 : ℚ) ^ (Int.log 2 q - 53) := le_trans hdiff hdiff2
        have h2 : (1 : ℚ) ≤ (P : ℚ) * (2 : ℚ) ^ (Int.log 2 q - 53) := by
          rw [div_le_iff₀ hPQ] at h1
          linarith [h1]
        have h3 := mul_le_mul_of_nonneg_right h2 (two_zpow_pos ((53 : ℤ) - Int.log 2 q)).le
        rw [one_mul, mul_assoc, two_zpow_mul] at h3
        have hz : Int.log 2 q - 53 + (53 - Int.log 2 q) = 0 := by ring
        rw [hz] at h3
        simpa using h3
      have hqe : (2 : ℚ) ^ (Int.log 2 q) ≤ q := Int.zpow_log_le_self (by norm_num) hq0
      have hL2 : (2 : ℚ) ^ (53 : ℤ) ≤ (L : ℚ) := by
        calc (2 : ℚ) ^ (53 : ℤ) = (2 : ℚ) ^ (Int.log 2 q) *
              (2 : ℚ) ^ ((53 : ℤ) - Int.log 2 q) := by
              rw [two_zpow_mul]
              congr 1
              ring
          _ ≤ q * (P : ℚ) := by
              exact mul_le_mul hqe hPbound (two_zpow_pos _).le (le_of_lt hq0)
          _ = (L : ℚ) := hqP
      have hLlt : (L : ℚ) < (2 : ℚ) ^ (53 : ℤ) := by
        have hnat : (L : ℚ) < (2 : ℚ) ^ (53 : ℕ) := by exact_mod_cast hL53
        calc (L : ℚ) < (2 : ℚ) ^ (53 : ℕ) := hnat
          _ = (2 : ℚ) ^ (53 : ℤ) := by
            rw [qpow_nat_int 53]
            norm_num
      linarith
    rw [hkdef] at hub hlb
    exact Int.ceil_eq_iff.mpr ⟨hlb, hub⟩

/-- Claim C10 (amended): for total length `L > 0` and piece length `P > 0`
that are both exactly representable in binary64 (`< 2^53`), and whose exact
ceiling `⌈L/P⌉ = (L + P - 1) / P` fits in a `u32`, the source computation
`(L as f64 / P as f64).ceil() as u32` returns that exact integer ceiling. -/
theorem get_total_pieces_exact (L P : Nat) (hL : 0 < L) (hP : 0 < P)
    (hL53 : L < 2 ^ 53) (hP53 : P < 2 ^ 53) (hcap : (L + P - 1) / P < 2 ^ 32) :
    get_total_pieces L P = (L + P - 1) / P := by
  have hLne : L ≠ 0 := by omega
  have hPne : P ≠ 0 := by omega
  have hPQ : (0 : ℚ) < (P : ℚ) := by exact_mod_cast hP
  have hLQ : (0 : ℚ) < (L : ℚ) := by exact_mod_cast hL
  have hfL : f64ofNat L = (L : ℚ) := by
    rw [f64ofNat, if_neg hLne, roundF64pos_nat_exact L hL (le_of_lt hL53)]
  have hfP : f64ofNat P = (P : ℚ) := by
    rw [f64ofNat, if_neg hPne, roundF64pos_nat_exact P hP (le_of_lt hP53)]
  have hdiv : f64div (f64ofNat L) (f64ofNat P) = roundF64pos ((L : ℚ) / (P : ℚ)) := by
    rw [hfL, hfP, f64div, if_neg (ne_of_gt hLQ)]
  have hceil : ⌈roundF64pos ((L : ℚ) / (P : ℚ))⌉ = (((L + P - 1) / P : ℕ) : ℤ) := by
    rw [ceil_roundF64pos L P hL hP hL53 hP53, ceil_div_nat L P hP]
  rw [get_total_pieces, hdiv, f64ceil, hceil, u32cast, Int.floor_intCast,
    Int.toNat_natCast, min_eq_left (by omega)]

/-- Witness for the amended Claim C10 theorem: a concrete torrent with
`L = 10`, `P = 4` yields exactly `⌈10/4⌉ = 3` pieces. -/
theorem get_total_pieces_exact_witness :
    0 < 10 ∧ 0 < 4 ∧ 10 < 2 ^ 53 ∧ 4 < 2 ^ 53 ∧ (10 + 4 - 1) / 4 < 2 ^ 32 ∧
      get_total_pieces 10 4 = (10 + 4 - 1) / 4 :=
  ⟨by norm_num, by norm_num, by norm_num, by norm_num, by norm_num,
    get_total_pieces_exact 10 4 (by norm_num) (by norm_num) (by norm_num)
      (by norm_num) (by norm_num)⟩

/-- Claim C10 counterexample: `get_total_pieces` does not compute the exact
integer ceiling for all representable inputs.  With
`total_length = 2^53 + 1` and `piece_length = 2^53`, the `as f64` cast
rounds `2^53 + 1` to `2^53` (ties-to-even), the quotient becomes exactly
`1.0`, and the function returns 1, while the exact ceiling
`⌈(2^53+1)/2^53⌉` is 2. -/
theorem get_total_pieces_f64_counterexample :
    get_total_pieces (2 ^ 53 + 1) (2 ^ 53) = 1 ∧
      (2 ^ 53 + 1 + (2 ^ 53 - 1)) / 2 ^ 53 = 2 := by
  constructor
  · rw [show get_total_pieces (2 ^ 53 + 1) (2 ^ 53) =
      u32cast (f64ceil (f64div (f64ofNat (2 ^ 53 + 1)) (f64ofNat (2 ^ 53)))) from rfl,
      f64ofNat_two_pow_53_add_one, f64ofNat_two_pow_53]
    rw [show f64div ((2 : ℚ) ^ 53) ((2 : ℚ) ^ 53) = roundF64pos 1 by
      unfold f64div
      rw [if_neg (by positivity), div_self (by positivity)]]
    rw [roundF64pos_one]
    unfold f64ceil u32cast
    norm_num
  · norm_num

end BT
